import Mathlib

/-!
Verification of the rsudoku solving engine (`src/main.rs`).

The Rust program is shallowly embedded: `SudokuValue` and `SudokuBoard`
become Lean inductives/structures, in-place mutation becomes explicit state
passing, `Result` becomes `Except`, and the recursions of `fill_space`,
`inital_check`, `narrow_full` and `solve` are expressed with an explicit
fuel parameter (the Rust code has no fuel; a `none` result means the fuel
ran out, and sufficiency lemmas below show which fuel is always enough).
Machine integers (`usize`) are modelled as `Nat`; `usize::MAX` appears
explicitly where the source uses it.
-/

namespace RSudoku

/-- The results of removing a possible value from a space
(`SudokuValueResult` in the source). -/
inductive SudokuValueResult
  | possibleValueRemoved
  | possibleValueAlreadyRemoved
  | valueNowKnown
deriving DecidableEq

/-- A Sudoku space value (`SudokuValue` in the source): `Known` with a digit
or `Unknown` with a vector of possible values. -/
inductive SudokuValue
  | Known (value : Nat)
  | Unknown (possible : List Nat)
deriving DecidableEq

/-- `SudokuValue::from(char)`: digits '1'–'9' give `Known`, letters and '0'
give `Unknown [1,...,9]`, everything else gives `None`. -/
def SudokuValue.fromChar (value : Char) : Option SudokuValue :=
  if '1' ≤ value ∧ value ≤ '9' then
    some (SudokuValue.Known (value.toNat - 48))
  else if ('a' ≤ value ∧ value ≤ 'z') ∨ ('A' ≤ value ∧ value ≤ 'Z') ∨ value = '0' then
    some (SudokuValue.Unknown [1, 2, 3, 4, 5, 6, 7, 8, 9])
  else
    none

/-- `SudokuValue::is_known`. -/
def SudokuValue.isKnown : SudokuValue → Bool
  | .Known _ => true
  | .Unknown _ => false

/-- `Vec::iter().position(|&x| x == v)`: index of the first occurrence. -/
def position (v : Nat) : List Nat → Option Nat
  | [] => none
  | x :: xs => if x = v then some 0 else (position v xs).map (· + 1)

/-- `Vec::swap_remove(i)`: replace the element at `i` with the last element
and shorten the vector by one. -/
def swapRemove (l : List Nat) (i : Nat) : List Nat :=
  (l.set i (l.getLast?.getD 0)).dropLast

/-- `SudokuValue::remove(possible_value_to_remove)`.  The in-place mutation
is modelled by returning the new value next to the `SudokuValueResult`;
`Result::Err(())` (unsolvable) becomes `Except.error ()`. -/
def SudokuValue.remove (self : SudokuValue) (possible_value_to_remove : Nat) :
    Except Unit (SudokuValue × SudokuValueResult) :=
  match self with
  | .Known value =>
    if value = possible_value_to_remove then
      .error ()
    else
      .ok (.Known value, .possibleValueAlreadyRemoved)
  | .Unknown possible_values =>
    match position possible_value_to_remove possible_values with
    | none => .ok (.Unknown possible_values, .possibleValueAlreadyRemoved)
    | some index =>
      let removed := swapRemove possible_values index
      if removed.length = 1 then
        .ok (.Known (removed.getD 0 0), .valueNowKnown)
      else
        .ok (.Unknown removed, .possibleValueRemoved)

/-- `SudokuBoard`: the spaces in a 2D vector, the number of empty spaces,
and the `initalised` flag (spelling kept from the source). -/
structure SudokuBoard where
  spaces : List (List SudokuValue)
  empty_spaces : Nat
  initalised : Bool
deriving DecidableEq

/-- `self.spaces[point.0][point.1]` (out-of-range indices, which the Rust
code never produces, read as `Known 0`). -/
def getSpace (b : SudokuBoard) (point : Nat × Nat) : SudokuValue :=
  (b.spaces.getD point.1 []).getD point.2 (SudokuValue.Known 0)

/-- `self.spaces[point.0][point.1] = v` (out-of-range writes are no-ops,
matching that the Rust code never performs them). -/
def setSpace (b : SudokuBoard) (point : Nat × Nat) (v : SudokuValue) : SudokuBoard :=
  { b with spaces := b.spaces.set point.1 ((b.spaces.getD point.1 []).set point.2 v) }

/-- `self.empty_spaces -= 1`. -/
def decEmpty (b : SudokuBoard) : SudokuBoard :=
  { b with empty_spaces := b.empty_spaces - 1 }

/-- `SudokuBoard::is_solved`. -/
def isSolved (b : SudokuBoard) : Bool :=
  b.empty_spaces == 0

/-- `SudokuBoard::get_adjecent_spaces`: row and column companions
interleaved in index order, then the four residual box cells. -/
def adjacentSpaces (point : Nat × Nat) : List (Nat × Nat) :=
  let rowcol := (List.range 9).flatMap fun i =>
    (if i ≠ point.1 then [(i, point.2)] else []) ++
    (if i ≠ point.2 then [(point.1, i)] else [])
  let box_x := (List.range 3).filterMap fun j =>
    if point.1 % 3 ≠ j then some (j + (point.1 / 3) * 3) else none
  let box_y := (List.range 3).filterMap fun j =>
    if point.2 % 3 ≠ j then some (j + (point.2 / 3) * 3) else none
  rowcol ++ box_x.flatMap fun x => box_y.map fun y => (x, y)

/-- `SudokuBoard::get_all_full_corrdinates`: the 9 rows and 9 columns
interleaved, then the nine 3×3 boxes. -/
def getAllFullCoordinates : List (List (Nat × Nat)) :=
  ((List.range 9).flatMap fun i =>
    [(List.range 9).map fun j => (i, j), (List.range 9).map fun j => (j, i)]) ++
  (List.range 3).flatMap fun box_x_index =>
    (List.range 3).map fun box_y_index =>
      (List.range 9).map fun i => (box_x_index * 3 + i % 3, box_y_index * 3 + i / 3)

/-- Number of `Unknown` cells in the grid. -/
def countU (b : SudokuBoard) : Nat :=
  (b.spaces.map fun row => row.countP fun c => !c.isKnown).sum

/-- Number of `Known` cells in the grid. -/
def countK (b : SudokuBoard) : Nat :=
  (b.spaces.map fun row => row.countP fun c => c.isKnown).sum

/-- The error cases of `fill_space` (the source uses `String` messages;
`overwrite` is "Tried to overright in a known value", `invalidAssignment`
is "Not a possible value", `unsolvable` is "Sudoku is unsolvable"). -/
inductive FillError
  | overwrite
  | invalidAssignment
  | unsolvable
deriving DecidableEq

/-- The initial assignment step of `fill_space` (lines 358–377): fill in
the space itself, before the adjacency loop. -/
def fillDirect (b : SudokuBoard) (point : Nat × Nat) (value : Nat) :
    Except FillError (SudokuBoard × Nat) :=
  match getSpace b point with
  | .Known x =>
    if x ≠ value then .error .overwrite else .ok (b, 0)
  | .Unknown possible =>
    if value ∈ possible then
      .ok (decEmpty (setSpace b point (.Known value)), 1)
    else
      .error .invalidAssignment

/-- The adjacency loop of `fill_space` (lines 379–400), parametric in the
recursive call `recur` (which is `fill_space` itself with one unit less
fuel).  A `none` result means the fuel inside `recur` ran out. -/
def fillLoopG
    (recur : SudokuBoard → Nat × Nat → Nat → Option (SudokuBoard × Except FillError Nat)) :
    SudokuBoard → Nat → List (Nat × Nat) → Nat → Option (SudokuBoard × Except FillError Nat)
  | b, _, [], acc => some (b, .ok acc)
  | b, value, q :: rest, acc =>
    match (getSpace b q).remove value with
    | .error _ => some (b, .error .unsolvable)
    | .ok (newVal, res) =>
      let b1 := setSpace b q newVal
      match res with
      | .valueNowKnown =>
        match newVal with
        | .Known checked_known_value =>
          match recur b1 q checked_known_value with
          | none => none
          | some (b2, .error e) => some (b2, .error e)
          | some (b2, .ok _) => fillLoopG recur (decEmpty b2) value rest (acc + 1)
        | .Unknown _ =>
          -- the `if let Known(..)` in the source falls through silently here
          -- (unreachable: `valueNowKnown` always comes with a `Known` value)
          fillLoopG recur (decEmpty b1) value rest (acc + 1)
      | _ => fillLoopG recur b1 value rest acc

/-- `SudokuBoard::fill_space(point, value)` with fuel for the cascade
recursion.  Returns the mutated board next to the Rust `Result`;
`none` means the fuel ran out (never happens with fuel > `countU`). -/
def fillSpaceF : Nat → SudokuBoard → Nat × Nat → Nat → Option (SudokuBoard × Except FillError Nat)
  | 0, _, _, _ => none
  | fuel + 1, b, point, value =>
    match fillDirect b point value with
    | .error e => some (b, .error e)
    | .ok (b1, new_known) =>
      fillLoopG (fillSpaceF fuel) b1 value (adjacentSpaces point) new_known

/-- The initial queue of `inital_check`: all currently `Known`
(row, column, value) triples in row-major order. -/
def initialQueue (b : SudokuBoard) : List (Nat × Nat × Nat) :=
  b.spaces.enum.flatMap fun ir =>
    ir.2.enum.filterMap fun js =>
      match js.2 with
      | .Known space_value => some (ir.1, js.1, space_value)
      | .Unknown _ => none

/-- The inner adjacency pass of `inital_check` for one popped queue entry:
remove `space_value` from every adjacent space, enqueueing newly known
spaces at the back of the queue. -/
def icAdj : SudokuBoard → List (Nat × Nat × Nat) → Nat → List (Nat × Nat) →
    SudokuBoard × Except Unit (List (Nat × Nat × Nat))
  | b, queue, _, [] => (b, .ok queue)
  | b, queue, space_value, q :: rest =>
    match (getSpace b q).remove space_value with
    | .error _ => (b, .error ())
    | .ok (newVal, res) =>
      let b1 := setSpace b q newVal
      match res with
      | .valueNowKnown =>
        let b2 := decEmpty b1
        match newVal with
        | .Known adjacent_space_value =>
          icAdj b2 (queue ++ [(q.1, q.2, adjacent_space_value)]) space_value rest
        | .Unknown _ =>
          -- the `panic!` arm of the source, unreachable after `valueNowKnown`
          icAdj b2 queue space_value rest
      | _ => icAdj b1 queue space_value rest

/-- The `while !known_points_to_check.is_empty()` loop of `inital_check`,
with fuel for the loop (never exhausted with fuel > `countK + countU`). -/
def icLoop : Nat → SudokuBoard → List (Nat × Nat × Nat) → Option (SudokuBoard × Except Unit Unit)
  | _, b, [] => some (b, .ok ())
  | 0, _, _ :: _ => none
  | fuel + 1, b, (x, y, space_value) :: qrest =>
    match icAdj b qrest space_value (adjacentSpaces (x, y)) with
    | (b1, .error _) => some (b1, .error ())
    | (b1, .ok queue') => icLoop fuel b1 queue'

/-- `SudokuBoard::inital_check` (sets `initalised`, then drains the queue of
known points, removing each known value from its adjacent spaces). -/
def initalCheckF (fuel : Nat) (b : SudokuBoard) : Option (SudokuBoard × Except Unit Unit) :=
  let b1 := { b with initalised := true }
  icLoop fuel b1 (initialQueue b1)

/-- Outcome of the per-(unit, value) scan inside `narrow` (lines 423–450):
`skipValue` is `continue 'values`, `noPlace` means no space can hold the
value, `fillAt p` means exactly one unknown space can. -/
inductive ScanOutcome
  | skipValue
  | noPlace
  | fillAt (p : Nat × Nat)
deriving DecidableEq

/-- The scan over one unit for one value inside `narrow`, threading
`unknown_value_to_fill_in` as the accumulator. -/
def scanUnit (b : SudokuBoard) (value : Nat) : List (Nat × Nat) → Option (Nat × Nat) → ScanOutcome
  | [], none => .noPlace
  | [], some p => .fillAt p
  | q :: rest, found =>
    match getSpace b q with
    | .Known known_value =>
      if known_value = value then .skipValue else scanUnit b value rest found
    | .Unknown possible_values =>
      if value ∈ possible_values then
        match found with
        | some _ => .skipValue
        | none => scanUnit b value rest (some q)
      else scanUnit b value rest found

/-- The `'values` loop of `narrow` over the digits of one unit. -/
def narrowValues (fuel : Nat) : SudokuBoard → List (Nat × Nat) → List Nat → Nat →
    Option (SudokuBoard × Except FillError Nat)
  | b, _, [], acc => some (b, .ok acc)
  | b, unit, value :: vrest, acc =>
    match scanUnit b value unit none with
    | .skipValue => narrowValues fuel b unit vrest acc
    | .noPlace => some (b, .error .unsolvable)
    | .fillAt point =>
      match fillSpaceF fuel b point value with
      | none => none
      | some (b1, .error e) => some (b1, .error e)
      | some (b1, .ok n) => narrowValues fuel b1 unit vrest (acc + n)

/-- The outer loop of `narrow` over all 27 units. -/
def narrowUnits (fuel : Nat) : SudokuBoard → List (List (Nat × Nat)) → Nat →
    Option (SudokuBoard × Except FillError Nat)
  | b, [], acc => some (b, .ok acc)
  | b, unit :: urest, acc =>
    match narrowValues fuel b unit ((List.range 9).map (· + 1)) acc with
    | none => none
    | some (b1, .error e) => some (b1, .error e)
    | some (b1, .ok acc') => narrowUnits fuel b1 urest acc'

/-- `SudokuBoard::narrow` (`fuel` feeds the inner `fill_space` calls). -/
def narrowF (fuel : Nat) (b : SudokuBoard) : Option (SudokuBoard × Except FillError Nat) :=
  narrowUnits fuel b getAllFullCoordinates 0

/-- `SudokuBoard::narrow_full`: `while self.narrow()? > 0 && !self.is_solved()`,
then return `is_solved`.  The first fuel bounds the loop iterations. -/
def narrowFullF : Nat → Nat → SudokuBoard → Option (SudokuBoard × Except FillError Bool)
  | 0, _, _ => none
  | lf + 1, fuel, b =>
    match narrowF fuel b with
    | none => none
    | some (b1, .error e) => some (b1, .error e)
    | some (b1, .ok n) =>
      if 0 < n ∧ ¬ isSolved b1 = true then narrowFullF lf fuel b1
      else some (b1, .ok (isSolved b1))

/-- The running best guess of `most_impactful_guess` (struct `Impact`). -/
structure Impact where
  point : Nat × Nat
  guess : Nat
  number_of_possible_values : Nat
  spaces_solved : Nat
  possible_values_removed : Nat
deriving DecidableEq

/-- `usize::MAX` on a 64-bit target, the sentinel candidate count of the
initial best guess. -/
def usizeMax : Nat := 2 ^ 64 - 1

/-- The adjacency statistics of one candidate guess: how many adjacent
unknown spaces of size 2 list the value (first component,
`other_spaces_solved_by_guess`) and how many adjacent unknown spaces list
it at all (second component, `possible_values_removed_by_guess`). -/
def guessCounts (b : SudokuBoard) (p : Nat × Nat) (possible_value : Nat) : Nat × Nat :=
  (adjacentSpaces p).foldl
    (fun counts q =>
      match getSpace b q with
      | .Unknown adject_possible_values =>
        if possible_value ∈ adject_possible_values then
          (if adject_possible_values.length = 2 then counts.1 + 1 else counts.1, counts.2 + 1)
        else counts
      | .Known _ => counts)
    (0, 0)

/-- One step of the inner candidate loop of `most_impactful_guess`
(lines 525–585): compare the new guess with the running best. -/
def guessStep (b : SudokuBoard) (p : Nat × Nat) (len : Nat) (best : Impact)
    (possible_value : Nat) : Impact :=
  let counts := guessCounts b p possible_value
  let new_guess : Impact := ⟨p, possible_value, len, counts.1, counts.2⟩
  if new_guess.number_of_possible_values < best.number_of_possible_values then new_guess
  else if best.spaces_solved < new_guess.spaces_solved then new_guess
  else if new_guess.spaces_solved < best.spaces_solved then best
  else if best.possible_values_removed < new_guess.possible_values_removed then new_guess
  else best

/-- The 81 cell coordinates in row-major order (the `i`/`j` double loop). -/
def allPoints : List (Nat × Nat) :=
  (List.range 9).flatMap fun i => (List.range 9).map fun j => (i, j)

/-- `SudokuBoard::most_impactful_guess`. -/
def mostImpactfulGuess (b : SudokuBoard) : (Nat × Nat) × Nat :=
  let best := allPoints.foldl
    (fun (best : Impact) p =>
      match getSpace b p with
      | .Unknown possible_values =>
        if best.number_of_possible_values < possible_values.length then best
        else possible_values.foldl (guessStep b p possible_values.length) best
      | .Known _ => best)
    ⟨(0, 0), 0, usizeMax, 0, 0⟩
  (best.point, best.guess)

/-- Outcome of the tail of one `solve` loop iteration after a failed guess:
return from `solve` with a result, loop again with the updated board, or
(model-only) run out of fuel inside a helper. -/
inductive LoopStep
  | done (b : SudokuBoard) (solved : Bool)
  | again (b : SudokuBoard)
  | fuelOut
deriving DecidableEq

/-- Lines 636–667 of `solve`: remove the failed guess from the original
board, and if the space became known, fill it in and narrow. -/
def solveRemoveGuess (b : SudokuBoard) (point : Nat × Nat) (guess_value : Nat) : LoopStep :=
  match (getSpace b point).remove guess_value with
  | .error _ => .done b false
  | .ok (newVal, res) =>
    let b1 := setSpace b point newVal
    match res with
    | .valueNowKnown =>
      let b2 := decEmpty b1
      match getSpace b2 point with
      | .Known point_new_value =>
        match fillSpaceF (countU b2 + 1) b2 point point_new_value with
        | none => .fuelOut
        | some (b3, .error _) => .done b3 false
        | some (b3, .ok _) =>
          if isSolved b3 then .done b3 true
          else
            match narrowFullF (countU b3 + 2) (countU b3 + 1) b3 with
            | none => .fuelOut
            | some (b4, .error _) => .done b4 false
            | some (b4, .ok _) => if isSolved b4 then .done b4 true else .again b4
      | .Unknown _ => .again b2   -- `if let Known` fallthrough, loops
    | _ => .again b1

/-- The branching `loop` of `solve`, parametric in the recursive call
`recur` (which is `solve` itself with one unit less fuel); the `Nat`
bounds the loop iterations.  Inner `fill_space` calls get the provably
sufficient fuel `countU + 1`. -/
def solveLoopG (recur : SudokuBoard → Option (SudokuBoard × Bool)) :
    Nat → SudokuBoard → Option (SudokuBoard × Bool)
  | 0, _ => none
  | lf + 1, b =>
    let pg := mostImpactfulGuess b
    match fillSpaceF (countU b + 1) b pg.1 pg.2 with
    | none => none
    | some (gb, .ok _) =>
      match recur gb with
      | none => none
      | some (sb, true) => some (sb, true)   -- `*self = guess_board; return true`
      | some (_, false) =>
        match solveRemoveGuess b pg.1 pg.2 with
        | .done b' s => some (b', s)
        | .again b' => solveLoopG recur lf b'
        | .fuelOut => none
    | some (_, .error _) =>
      match solveRemoveGuess b pg.1 pg.2 with
      | .done b' s => some (b', s)
      | .again b' => solveLoopG recur lf b'
      | .fuelOut => none

/-- `SudokuBoard::solve` with fuel bounding the branch recursion depth and
the loop iterations (fuel > total candidate count provably suffices). -/
def solveF : Nat → SudokuBoard → Option (SudokuBoard × Bool)
  | 0, _ => none
  | fuel + 1, b =>
    match (if !b.initalised then initalCheckF (countK b + countU b + 1) b
           else some (b, .ok ())) with
    | none => none
    | some (b1, .error _) => some (b1, false)
    | some (b1, .ok _) =>
      if isSolved b1 then some (b1, true)
      else
        match narrowFullF (countU b1 + 2) (countU b1 + 1) b1 with
        | none => none
        | some (b2, .error _) => some (b2, false)
        | some (b2, .ok _) =>
          if isSolved b2 then some (b2, true)
          else solveLoopG (solveF fuel) (fuel + 1) b2

/-- The loop state of `SudokuBoard::new` (lines 153–185). -/
structure ParseState where
  spaces : List (List SudokuValue)
  row_index : Nat
  empty_spaces : Nat
  known_spaces : Nat
deriving DecidableEq

/-- Place one recognized value: bump the matching count, open a new row
when the current one is complete (`spaces.len() == row_index`), append the
value to the current row, and advance `row_index` when the row reaches 9
cells.  (The Rust statements mutate `self` in order; the fields are
independent, so they are computed side by side here.) -/
def placeValue (st : ParseState) (value : SudokuValue) : ParseState :=
  let known' := if value.isKnown then st.known_spaces + 1 else st.known_spaces
  let empty' := if value.isKnown then st.empty_spaces else st.empty_spaces + 1
  let spaces1 := if st.spaces.length = st.row_index then st.spaces ++ [[]] else st.spaces
  let spaces2 := spaces1.set st.row_index ((spaces1.getD st.row_index []) ++ [value])
  let row' := if (spaces2.getD st.row_index []).length = 9 then st.row_index + 1 else st.row_index
  ⟨spaces2, row', empty', known'⟩

/-- The character loop of `SudokuBoard::new`: unrecognized characters are
skipped, recognized ones are placed, and the loop breaks as soon as
`row_index` reaches 9 (81 cells placed). -/
def buildSpaces : List Char → ParseState → ParseState
  | [], st => st
  | c :: cs, st =>
    match SudokuValue.fromChar c with
    | none => buildSpaces cs st
    | some value =>
      let st' := placeValue st value
      if st'.row_index = 9 then st' else buildSpaces cs st'

/-- `SudokuBoard::new` minus the file system access: construct a board
from the characters of the board text.  `Except.error ()` is the
`io::ErrorKind::InvalidInput` "Failed to fill board" outcome. -/
def newBoard (board_string : List Char) : Except Unit SudokuBoard :=
  let st := buildSpaces board_string ⟨[], 0, 0, 0⟩
  if st.known_spaces + st.empty_spaces ≠ 81 then .error ()
  else .ok ⟨st.spaces, st.empty_spaces, false⟩

/-! ## Basic lemmas about `position` and `swapRemove` -/

theorem position_eq_none {v : Nat} : ∀ {l : List Nat}, position v l = none ↔ v ∉ l
  | [] => by simp [position]
  | x :: xs => by
    simp only [position, List.mem_cons]
    by_cases hx : x = v
    · simp [hx]
    · simp only [if_neg hx, Option.map_eq_none', position_eq_none]
      constructor
      · intro h hc
        rcases hc with hc | hc
        · exact hx hc.symm
        · exact h hc
      · intro h
        exact fun hc => h (Or.inr hc)

theorem position_spec {v : Nat} : ∀ {l : List Nat} {i : Nat}, position v l = some i →
    i < l.length ∧ l.getD i 0 = v
  | [], _, h => by simp [position] at h
  | x :: xs, i, h => by
    by_cases hx : x = v
    · simp [position, hx] at h
      subst h
      simpa using hx
    · simp only [position, if_neg hx, Option.map_eq_some'] at h
      obtain ⟨j, hj, hji⟩ := h
      obtain ⟨h1, h2⟩ := position_spec hj
      subst hji
      exact ⟨by simpa using h1, by simpa using h2⟩

theorem position_isSome_of_mem {v : Nat} {l : List Nat} (h : v ∈ l) :
    ∃ i, position v l = some i := by
  cases hp : position v l with
  | none => exact absurd h (position_eq_none.1 hp)
  | some i => exact ⟨i, rfl⟩

/-- `swap_remove` at a valid index removes exactly the element at that index
(as a multiset): putting it back as a permutation recovers the vector. -/
theorem swapRemove_perm : ∀ (l : List Nat) (i : Nat), i < l.length →
    (swapRemove l i ++ [l.getD i 0]).Perm l
  | [], i, h => by simp at h
  | x :: xs, 0, _ => by
    cases xs with
    | nil => simp [swapRemove]
    | cons b bs =>
      have hne : (b :: bs) ≠ [] := by simp
      have hlast : (x :: b :: bs).getLast?.getD 0 = (b :: bs).getLast hne := by
        rw [List.getLast?_cons_cons, List.getLast?_eq_getLast _ hne]
        rfl
      simp only [swapRemove, hlast, List.set]
      rw [List.dropLast_cons₂, List.getD_cons_zero]
      have h1 : (((b :: bs).getLast hne :: (b :: bs).dropLast) ++ [x]).Perm
          (x :: ((b :: bs).getLast hne :: (b :: bs).dropLast)) :=
        List.perm_append_singleton x _
      have h2 : ((b :: bs).getLast hne :: (b :: bs).dropLast).Perm (b :: bs) := by
        have h3 := (List.perm_append_singleton ((b :: bs).getLast hne) ((b :: bs).dropLast)).symm
        rw [List.dropLast_append_getLast hne] at h3
        exact h3
      exact h1.trans (h2.cons x)
  | x :: xs, i + 1, h => by
    have hxs : i < xs.length := by simpa using h
    have hrw : swapRemove (x :: xs) (i + 1) = x :: swapRemove xs i := by
      cases xs with
      | nil => simp at hxs
      | cons b bs =>
        simp only [swapRemove, List.getLast?_cons_cons, List.set]
        have hset : (b :: bs).set i ((b :: bs).getLast?.getD 0) ≠ [] := by
          cases i <;> simp [List.set]
        rw [List.dropLast_cons_of_ne_nil hset]
    rw [hrw, List.getD_cons_succ]
    exact (swapRemove_perm xs i hxs).cons x

/-! ## C7: the adjacency geometry -/

theorem mem_allPoints (q : Nat × Nat) : q ∈ allPoints ↔ q.1 < 9 ∧ q.2 < 9 := by
  rcases q with ⟨a, b⟩
  simp [allPoints, List.mem_flatMap, List.mem_map, List.mem_range]

theorem allPoints_nodup : allPoints.Nodup := by decide

set_option maxRecDepth 10000 in
theorem adj_perm : ∀ p ∈ allPoints, (adjacentSpaces p).Perm
    (allPoints.filter fun q => decide (q ≠ p ∧
      (q.1 = p.1 ∨ q.2 = p.2 ∨ (q.1 / 3 = p.1 / 3 ∧ q.2 / 3 = p.2 / 3)))) := by
  decide

set_option maxRecDepth 10000 in
theorem adj_len : ∀ p ∈ allPoints, (adjacentSpaces p).length = 20 := by
  decide

/-- Spec-side description of `adjacentCells(point)`: the returned list has
no duplicates, has 20 entries, and its members are exactly the in-range
coordinates other than `p` sharing `p`'s row, column, or 3×3 box. -/
def AdjSpec (p : Nat × Nat) : Prop :=
  (adjacentSpaces p).Nodup ∧ (adjacentSpaces p).length = 20 ∧
  ∀ q : Nat × Nat, q ∈ adjacentSpaces p ↔
    (q.1 < 9 ∧ q.2 < 9 ∧ q ≠ p ∧
      (q.1 = p.1 ∨ q.2 = p.2 ∨ (q.1 / 3 = p.1 / 3 ∧ q.2 / 3 = p.2 / 3)))

theorem adjSpec_of_mem (p : Nat × Nat) (hp : p ∈ allPoints) : AdjSpec p := by
  have hperm := adj_perm p hp
  refine ⟨?_, adj_len p hp, ?_⟩
  · exact hperm.nodup_iff.2 (allPoints_nodup.filter _)
  · intro q
    rw [hperm.mem_iff, List.mem_filter, mem_allPoints]
    simp only [decide_eq_true_eq]
    constructor
    · rintro ⟨⟨h1, h2⟩, h3, h4⟩
      exact ⟨h1, h2, h3, h4⟩
    · rintro ⟨h1, h2, h3, h4⟩
      exact ⟨⟨h1, h2⟩, h3, h4⟩

/-- C7: for every in-range point, `get_adjecent_spaces` returns exactly the
20 distinct coordinates that share the point's row, column, or 3×3 box and
differ from it; in particular for (0,0) it excludes (0,0), includes (8,0)
and (0,8), and excludes (4,4). -/
theorem get_adjecent_spaces_C7 (r c : Nat) (hr : r < 9) (hc : c < 9) :
    AdjSpec (r, c) ∧
    ((0, 0) ∉ adjacentSpaces (0, 0) ∧ (8, 0) ∈ adjacentSpaces (0, 0) ∧
      (0, 8) ∈ adjacentSpaces (0, 0) ∧ (4, 4) ∉ adjacentSpaces (0, 0)) := by
  constructor
  · exact adjSpec_of_mem (r, c) ((mem_allPoints _).2 ⟨hr, hc⟩)
  · decide

/-- Witness for C7 at the concrete point (0,0). -/
theorem get_adjecent_spaces_C7_witness :
    ((0 : Nat) < 9) ∧
    (AdjSpec (0, 0) ∧
      ((0, 0) ∉ adjacentSpaces (0, 0) ∧ (8, 0) ∈ adjacentSpaces (0, 0) ∧
        (0, 8) ∈ adjacentSpaces (0, 0) ∧ (4, 4) ∉ adjacentSpaces (0, 0))) :=
  ⟨by decide, get_adjecent_spaces_C7 0 0 (by decide) (by decide)⟩

/-! ## C4: the case analysis of `SudokuValue::remove` -/

/-- C4: `remove(v)` on `Known(v)` errors with no mutation; on `Known(x)`,
`x ≠ v`, returns `PossibleValueAlreadyRemoved` with no mutation; on
`Unknown(S)` with `v ∉ S` returns `PossibleValueAlreadyRemoved` with no
mutation; on `Unknown(S)` with `v ∈ S` and `|S| = 2` the space becomes
`Known` of the other element with `ValueNowKnown`; on `Unknown(S)` with
`v ∈ S` and `|S| > 2` exactly one occurrence of `v` is removed (the result
plus `v` is a permutation of `S`) with `PossibleValueRemoved`. -/
theorem remove_cases_C4 (v x : Nat) (l : List Nat) :
    (SudokuValue.remove (.Known v) v = .error ()) ∧
    (x ≠ v → SudokuValue.remove (.Known x) v =
      .ok (.Known x, .possibleValueAlreadyRemoved)) ∧
    (v ∉ l → SudokuValue.remove (.Unknown l) v =
      .ok (.Unknown l, .possibleValueAlreadyRemoved)) ∧
    (l.length = 2 → v ∈ l → x ∈ l → x ≠ v →
      SudokuValue.remove (.Unknown l) v = .ok (.Known x, .valueNowKnown)) ∧
    (2 < l.length → v ∈ l → ∃ l', SudokuValue.remove (.Unknown l) v =
      .ok (.Unknown l', .possibleValueRemoved) ∧ (l' ++ [v]).Perm l ∧
      l'.length + 1 = l.length) := by
  refine ⟨?_, ?_, ?_, ?_, ?_⟩
  · simp [SudokuValue.remove]
  · intro h
    simp [SudokuValue.remove, h]
  · intro h
    have hp := position_eq_none.2 h
    simp [SudokuValue.remove, hp]
  · intro hlen hv hx hxv
    rcases l with _ | ⟨a, _ | ⟨b, _ | ⟨c, t⟩⟩⟩ <;> simp at hlen
    by_cases hav : a = v
    · subst hav
      have hxb : x = b := by
        rcases List.mem_cons.1 hx with h | h
        · exact absurd h hxv
        · simpa using h
      subst hxb
      simp [SudokuValue.remove, position, swapRemove]
    · have hvb : v = b := by
        rcases List.mem_cons.1 hv with h | h
        · exact absurd h.symm hav
        · simpa using h
      subst hvb
      have hxa : x = a := by
        rcases List.mem_cons.1 hx with h | h
        · exact h
        · simp at h
          exact absurd h hxv
      subst hxa
      simp only [SudokuValue.remove, position, if_neg hav, if_pos rfl]
      simp [swapRemove]
  · intro hlen hv
    obtain ⟨i, hi⟩ := position_isSome_of_mem hv
    obtain ⟨hilt, hig⟩ := position_spec hi
    have hperm := swapRemove_perm l i hilt
    rw [hig] at hperm
    have hlsr : (swapRemove l i).length + 1 = l.length := by
      have hl := hperm.length_eq
      simpa using hl
    have hne1 : ¬ (swapRemove l i).length = 1 := by omega
    refine ⟨swapRemove l i, ?_, hperm, hlsr⟩
    simp [SudokuValue.remove, hi, hne1]

/-- Witness for C4, instantiating every case at concrete values. -/
theorem remove_cases_C4_witness :
    ((2 : Nat) ≠ 1 ∧ (1 : Nat) ∉ ([2, 3] : List Nat) ∧
      ([1, 2] : List Nat).length = 2 ∧ (2 : Nat) < ([1, 2, 3] : List Nat).length) ∧
    SudokuValue.remove (.Known 1) 1 = .error () ∧
    SudokuValue.remove (.Known 2) 1 = .ok (.Known 2, .possibleValueAlreadyRemoved) ∧
    SudokuValue.remove (.Unknown [2, 3]) 1 =
      .ok (.Unknown [2, 3], .possibleValueAlreadyRemoved) ∧
    SudokuValue.remove (.Unknown [1, 2]) 1 = .ok (.Known 2, .valueNowKnown) ∧
    (∃ l', SudokuValue.remove (.Unknown [1, 2, 3]) 1 =
      .ok (.Unknown l', .possibleValueRemoved) ∧ (l' ++ [1]).Perm [1, 2, 3] ∧
      l'.length + 1 = ([1, 2, 3] : List Nat).length) :=
  ⟨⟨by decide, by decide, by decide, by decide⟩,
    (remove_cases_C4 1 2 [2, 3]).1,
    (remove_cases_C4 1 2 [2, 3]).2.1 (by decide),
    (remove_cases_C4 1 2 [2, 3]).2.2.1 (by decide),
    (remove_cases_C4 1 2 [1, 2]).2.2.2.1 (by decide) (by decide) (by decide) (by decide),
    (remove_cases_C4 1 2 [1, 2, 3]).2.2.2.2 (by decide) (by decide)⟩

/-! ## Concrete boards and result extractors for C1 and C2 -/

/-- A full candidate list 1–9: the state of every unknown cell right after
construction. -/
def fullU : SudokuValue := .Unknown [1, 2, 3, 4, 5, 6, 7, 8, 9]

/-- An all-unknown 9×9 board with consistent `empty_spaces`. -/
def baseBoard : SudokuBoard := ⟨List.replicate 9 (List.replicate 9 fullU), 81, false⟩

/-- The `Ok` count of a `fill_space` result. -/
def okCount : Option (SudokuBoard × Except FillError Nat) → Option Nat
  | some (_, .ok n) => some n
  | _ => none

/-- The number of unknown cells of the board a `fill_space` call returns. -/
def outCountU : Option (SudokuBoard × Except FillError Nat) → Option Nat
  | some (b, _) => some (countU b)
  | none => none

/-- The `empty_spaces` field of the board a `fill_space` call returns. -/
def outEmpty : Option (SudokuBoard × Except FillError Nat) → Option Nat
  | some (b, _) => some b.empty_spaces
  | none => none

/-- The error of a failed `fill_space` result. -/
def outErr : Option (SudokuBoard × Except FillError Nat) → Option FillError
  | some (_, .error e) => some e
  | _ => none

/-- Board exercising a depth-2 cascade of `fill_space((0,0), 1)`: cell
(0,1) has candidates {1,2} (fixed to 2 at depth 1) and cell (5,1) has
candidates {2,3} (fixed to 3 at depth 2, inside the recursive call). -/
def c1Board : SudokuBoard :=
  setSpace (setSpace baseBoard (0, 1) (.Unknown [1, 2])) (5, 1) (.Unknown [2, 3])

/-- C1 fails on the code: `fill_space((0,0), 1)` on `c1Board` fixes three
cells (`countU` drops from 81 to 78: the assigned cell (0,0), the depth-1
cascade (0,1), and the depth-2 cascade (5,1)) yet returns `Ok(2)` — the
count of the recursive `fill_space` call is discarded by the `?` operator,
so cascades below depth 1 are never tallied, contradicting the claim and
the function's own documentation. -/
theorem fill_space_undercount_C1 :
    countU c1Board = 81 ∧
    okCount (fillSpaceF 82 c1Board (0, 0) 1) = some 2 ∧
    outCountU (fillSpaceF 82 c1Board (0, 0) 1) = some 78 := by
  decide

/-- Board on which `fill_space` breaks the `empty_spaces` invariant on its
error return: (0,1) has candidates {1,2} and (0,2) is already `Known 2`.
Filling (0,0) with 1 fixes (0,1) to 2; the recursive call on (0,1) then
hits the contradiction at (0,2) and the error return skips the
`empty_spaces -= 1` for (0,1). -/
def c2Board : SudokuBoard :=
  { setSpace (setSpace baseBoard (0, 1) (.Unknown [1, 2])) (0, 2) (.Known 2) with
    empty_spaces := 80 }

/-- C2 fails on the code as stated: `c2Board` satisfies the invariant
(`empty_spaces = 80 = countU`), yet the (error-returning) call
`fill_space((0,0), 1)` returns a board with `empty_spaces = 79` but only
78 unknown cells — the decrement for the cascade-fixed cell (0,1) is
skipped when the recursive call fails. -/
theorem fill_space_err_breaks_invariant_C2_cex :
    c2Board.empty_spaces = countU c2Board ∧
    outErr (fillSpaceF 81 c2Board (0, 0) 1) = some .unsolvable ∧
    outEmpty (fillSpaceF 81 c2Board (0, 0) 1) = some 79 ∧
    outCountU (fillSpaceF 81 c2Board (0, 0) 1) = some 78 := by
  decide


/-! ## C5: board construction from text -/

/-- Invariant tying a parse state to its decomposition into full rows and a
partial last row. -/
def StInv (st : ParseState) (full : List (List SudokuValue)) (part : List SudokuValue) : Prop :=
  (∀ r ∈ full, r.length = 9) ∧ part.length < 9 ∧
  st.row_index = full.length ∧
  ((part = [] ∧ st.spaces = full) ∨ (part ≠ [] ∧ st.spaces = full ++ [part])) ∧
  st.known_spaces + st.empty_spaces = 9 * full.length + part.length

theorem placeValue_counts (st : ParseState) (v : SudokuValue) :
    (placeValue st v).known_spaces + (placeValue st v).empty_spaces =
      st.known_spaces + st.empty_spaces + 1 := by
  by_cases hk : v.isKnown <;> simp [placeValue, hk] <;> omega

theorem placeValue_spec (st : ParseState) (v : SudokuValue)
    (full : List (List SudokuValue)) (part : List SudokuValue)
    (hinv : StInv st full part) (hlt : st.row_index < 9) :
    ∃ full' part', StInv (placeValue st v) full' part' ∧
      (placeValue st v).spaces.flatten = st.spaces.flatten ++ [v] ∧
      (placeValue st v).known_spaces + (placeValue st v).empty_spaces =
        st.known_spaces + st.empty_spaces + 1 ∧
      (placeValue st v).row_index ≤ st.row_index + 1 ∧
      ((placeValue st v).row_index = 9 → part' = []) := by
  obtain ⟨hfull, hpart, hrow, hsp, hcnt⟩ := hinv
  rcases hsp with ⟨hpe, hspaces⟩ | ⟨hpne, hspaces⟩
  · -- current row not yet started: a fresh row is pushed and v appended
    subst hpe
    have hc1 : st.spaces.length = st.row_index := by rw [hspaces, hrow]
    have hsp1 : (placeValue st v).spaces = full ++ [[v]] := by
      simp only [placeValue, hspaces, hrow, eq_self_iff_true, if_true]
      rw [List.getD_append_right full _ _ _ (le_refl full.length)]
      rw [List.set_append_right _ _ (le_refl full.length)]
      simp
    have hgd : (placeValue st v).spaces.getD st.row_index [] = [v] := by
      rw [hsp1, hrow]
      simp
    have hrw : (placeValue st v).row_index = st.row_index := by
      have : (placeValue st v).row_index =
          if ((placeValue st v).spaces.getD st.row_index []).length = 9 then
            st.row_index + 1 else st.row_index := by
        by_cases hk : v.isKnown <;> simp only [placeValue, hk, if_true, if_false]
      rw [this, hgd]
      simp
    refine ⟨full, [v], ⟨hfull, by simp, by rw [hrw, hrow], Or.inr ⟨by simp, hsp1⟩, by
      rw [placeValue_counts, hcnt]; simp⟩,
      by rw [hsp1, hspaces]; simp, placeValue_counts st v, by rw [hrw]; omega, ?_⟩
    intro h9
    rw [hrw, hrow] at h9
    omega
  · -- the partial row gets v appended
    have hc1 : ¬ st.spaces.length = st.row_index := by
      rw [hspaces, hrow]
      simp
    have hsp1 : (placeValue st v).spaces = full ++ [part ++ [v]] := by
      have hc1' : (((full ++ [part]).length = full.length) = False) := by simp
      simp only [placeValue, hspaces, hrow, hc1', if_false]
      rw [List.getD_append_right full _ _ _ (le_refl full.length)]
      rw [List.set_append_right _ _ (le_refl full.length)]
      simp
    have hgd : (placeValue st v).spaces.getD st.row_index [] = part ++ [v] := by
      rw [hsp1, hrow]
      simp
    have hrw : (placeValue st v).row_index =
        if (part ++ [v]).length = 9 then st.row_index + 1 else st.row_index := by
      have h2 : (placeValue st v).row_index =
          if ((placeValue st v).spaces.getD st.row_index []).length = 9 then
            st.row_index + 1 else st.row_index := by
        by_cases hk : v.isKnown <;> simp only [placeValue, hk, if_true, if_false]
      rw [h2, hgd]
    by_cases h9 : (part ++ [v]).length = 9
    · have hfull' : ∀ r ∈ full ++ [part ++ [v]], r.length = 9 := by
        intro r hr
        rcases List.mem_append.1 hr with hr | hr
        · exact hfull r hr
        · simp at hr
          rw [hr]
          exact h9
      refine ⟨full ++ [part ++ [v]], [], ⟨hfull', by simp,
        by rw [hrw, if_pos h9, hrow]; simp, Or.inl ⟨rfl, hsp1⟩, ?_⟩,
        by rw [hsp1, hspaces]; simp, placeValue_counts st v,
        by rw [hrw, if_pos h9], fun _ => rfl⟩
      rw [placeValue_counts, hcnt]
      simp only [List.length_append, List.length_singleton] at h9
      simp
      omega
    · refine ⟨full, part ++ [v], ⟨hfull, ?_, by rw [hrw, if_neg h9, hrow], Or.inr ⟨by simp, hsp1⟩, ?_⟩,
        by rw [hsp1, hspaces]; simp, placeValue_counts st v,
        by rw [hrw, if_neg h9]; omega, ?_⟩
      · simp only [List.length_append, List.length_singleton] at h9 ⊢
        omega
      · rw [placeValue_counts, hcnt]
        simp only [List.length_append, List.length_singleton]
        omega
      · intro h
        rw [hrw, if_neg h9, hrow] at h
        omega

theorem buildSpaces_spec : ∀ (cs : List Char) (st : ParseState)
    (full : List (List SudokuValue)) (part : List SudokuValue),
    StInv st full part → st.row_index < 9 →
    ∃ full' part', StInv (buildSpaces cs st) full' part' ∧
      ((buildSpaces cs st).row_index = 9 → part' = []) ∧
      (buildSpaces cs st).spaces.flatten = st.spaces.flatten ++
        ((cs.filterMap SudokuValue.fromChar).take
          (81 - (st.known_spaces + st.empty_spaces))) ∧
      (buildSpaces cs st).known_spaces + (buildSpaces cs st).empty_spaces =
        min 81 (st.known_spaces + st.empty_spaces + (cs.filterMap SudokuValue.fromChar).length)
  | [], st, full, part, hinv, hlt => by
    refine ⟨full, part, hinv, ?_, by simp [buildSpaces], ?_⟩
    · intro h9
      simp only [buildSpaces] at h9
      obtain ⟨_, _, hrow, _, _⟩ := hinv
      omega
    · obtain ⟨_, hpart, hrow, _, hcnt⟩ := hinv
      simp only [buildSpaces, List.filterMap_nil, List.length_nil]
      omega
  | c :: cs, st, full, part, hinv, hlt => by
    have hplaced : st.known_spaces + st.empty_spaces ≤ 80 := by
      obtain ⟨_, hpart, hrow, _, hcnt⟩ := hinv
      omega
    cases hfc : SudokuValue.fromChar c with
    | none =>
      have hbs : buildSpaces (c :: cs) st = buildSpaces cs st := by
        simp [buildSpaces, hfc]
      rw [hbs]
      have h2 : (c :: cs).filterMap SudokuValue.fromChar = cs.filterMap SudokuValue.fromChar := by
        simp [List.filterMap_cons, hfc]
      rw [h2]
      exact buildSpaces_spec cs st full part hinv hlt
    | some v =>
      obtain ⟨full1, part1, hinv1, hfl1, hcnt1, hle1, h91⟩ :=
        placeValue_spec st v full part hinv hlt
      have h2 : (c :: cs).filterMap SudokuValue.fromChar =
          v :: cs.filterMap SudokuValue.fromChar := by
        simp [List.filterMap_cons, hfc]
      rw [h2]
      obtain ⟨k, hk⟩ : ∃ k, 81 - (st.known_spaces + st.empty_spaces) = k + 1 :=
        ⟨80 - (st.known_spaces + st.empty_spaces), by omega⟩
      by_cases h9 : (placeValue st v).row_index = 9
      · have hbs : buildSpaces (c :: cs) st = placeValue st v := by
          simp [buildSpaces, hfc, h9]
        rw [hbs]
        -- the loop breaks with exactly 81 cells placed
        have hp1 : part1 = [] := h91 h9
        have h81 : (placeValue st v).known_spaces + (placeValue st v).empty_spaces = 81 := by
          obtain ⟨_, _, hrow1, _, hc1⟩ := hinv1
          rw [hc1, hp1]
          rw [h9] at hrow1
          simp [← hrow1]
        have hk0 : k = 0 := by omega
        refine ⟨full1, part1, hinv1, fun _ => hp1, ?_, ?_⟩
        · rw [hk, hk0, List.take_succ_cons, List.take_zero, hfl1]
        · rw [h81]
          simp only [List.length_cons]
          omega
      · have hbs : buildSpaces (c :: cs) st = buildSpaces cs (placeValue st v) := by
          simp [buildSpaces, hfc, h9]
        rw [hbs]
        have hlt1 : (placeValue st v).row_index < 9 := by omega
        obtain ⟨full2, part2, hinv2, h92, hfl2, hcnt2⟩ :=
          buildSpaces_spec cs (placeValue st v) full1 part1 hinv1 hlt1
        refine ⟨full2, part2, hinv2, h92, ?_, ?_⟩
        · rw [hfl2, hfl1, hcnt1, hk, List.take_succ_cons]
          have : 81 - (st.known_spaces + st.empty_spaces + 1) = k := by omega
          rw [this]
          simp
        · rw [hcnt2, hcnt1]
          simp only [List.length_cons]
          omega

theorem length_filterMap_isSome (f : Char → Option SudokuValue) : ∀ (l : List Char),
    (l.filterMap f).length = (l.filter fun c => (f c).isSome).length
  | [] => rfl
  | c :: cs => by
    cases hfc : f c with
    | none => simp [List.filterMap_cons, List.filter_cons, hfc, length_filterMap_isSome f cs]
    | some v => simp [List.filterMap_cons, List.filter_cons, hfc, length_filterMap_isSome f cs]

theorem new_board_C5 (s : List Char) :
    ((newBoard s = .error ()) ↔
      (s.filter fun c => (SudokuValue.fromChar c).isSome).length < 81) ∧
    (∀ b, newBoard s = .ok b →
      b.spaces.length = 9 ∧ (∀ row ∈ b.spaces, row.length = 9) ∧
      b.spaces.flatten = (s.filterMap SudokuValue.fromChar).take 81) ∧
    (∀ c : Char, '1' ≤ c → c ≤ '9' →
      SudokuValue.fromChar c = some (.Known (c.toNat - 48))) ∧
    (∀ c : Char, ('a' ≤ c ∧ c ≤ 'z') ∨ ('A' ≤ c ∧ c ≤ 'Z') ∨ c = '0' →
      SudokuValue.fromChar c = some (.Unknown [1, 2, 3, 4, 5, 6, 7, 8, 9])) ∧
    (∀ c : Char, SudokuValue.fromChar c = none ↔
      ¬ (('1' ≤ c ∧ c ≤ '9') ∨ ('a' ≤ c ∧ c ≤ 'z') ∨ ('A' ≤ c ∧ c ≤ 'Z') ∨ c = '0')) := by
  have hbase : StInv ⟨[], 0, 0, 0⟩ [] [] := by
    refine ⟨by simp, by simp, rfl, Or.inl ⟨rfl, rfl⟩, by simp⟩
  obtain ⟨full', part', hinv', h9', hfl', hcnt'⟩ :=
    buildSpaces_spec s ⟨[], 0, 0, 0⟩ [] [] hbase (by norm_num)
  have hflen := length_filterMap_isSome SudokuValue.fromChar s
  refine ⟨?_, ?_, ?_, ?_, ?_⟩
  · by_cases hcase : (buildSpaces s ⟨[], 0, 0, 0⟩).known_spaces +
        (buildSpaces s ⟨[], 0, 0, 0⟩).empty_spaces = 81
    · have hok : newBoard s = .ok ⟨(buildSpaces s ⟨[], 0, 0, 0⟩).spaces,
          (buildSpaces s ⟨[], 0, 0, 0⟩).empty_spaces, false⟩ := by
        simp [newBoard, hcase]
      rw [hok]
      simp only [hcase] at hcnt'
      constructor
      · intro h
        simp at h
      · intro h
        omega
    · have herr : newBoard s = .error () := by
        simp [newBoard, hcase]
      rw [herr]
      simp only [ne_eq] at hcase
      constructor
      · intro _
        omega
      · intro _
        rfl
  · intro b hb
    by_cases hcase : (buildSpaces s ⟨[], 0, 0, 0⟩).known_spaces +
        (buildSpaces s ⟨[], 0, 0, 0⟩).empty_spaces = 81
    · have hok : newBoard s = .ok ⟨(buildSpaces s ⟨[], 0, 0, 0⟩).spaces,
          (buildSpaces s ⟨[], 0, 0, 0⟩).empty_spaces, false⟩ := by
        simp [newBoard, hcase]
      rw [hok] at hb
      have hbeq : b = ⟨(buildSpaces s ⟨[], 0, 0, 0⟩).spaces,
          (buildSpaces s ⟨[], 0, 0, 0⟩).empty_spaces, false⟩ := by
        cases hb
        rfl
      subst hbeq
      obtain ⟨hfull, hpart, hrow, hsp, hcnt⟩ := hinv'
      rw [hcase] at hcnt
      have hpl : part'.length = 0 := by omega
      have hpe : part' = [] := List.length_eq_zero.1 hpl
      have hfl : full'.length = 9 := by omega
      rcases hsp with ⟨_, hsp⟩ | ⟨hne, _⟩
      · refine ⟨by rw [hsp, hfl], ?_, ?_⟩
        · intro row hr
          rw [hsp] at hr
          exact hfull row hr
        · simpa using hfl'
      · exact absurd hpe hne
    · have herr : newBoard s = .error () := by
        simp [newBoard, hcase]
      rw [herr] at hb
      cases hb
  · intro c h1 h2
    simp [SudokuValue.fromChar, h1, h2]
  · intro c hcl
    have hnd : ¬ ('1' ≤ c ∧ c ≤ '9') := by
      rintro ⟨hc1, hc9⟩
      rcases hcl with ⟨ha, _⟩ | ⟨hA, _⟩ | h0
      · exact absurd (le_trans ha hc9) (by decide)
      · exact absurd (le_trans hA hc9) (by decide)
      · rw [h0] at hc1
        exact absurd hc1 (by decide)
    simp [SudokuValue.fromChar, hnd, hcl]
  · intro c
    constructor
    · intro hn hcon
      rcases hcon with hd | hcl
      · simp [SudokuValue.fromChar, hd] at hn
      · have hnd : ¬ ('1' ≤ c ∧ c ≤ '9') := by
          rintro ⟨hc1, hc9⟩
          rcases hcl with ⟨ha, _⟩ | ⟨hA, _⟩ | h0
          · exact absurd (le_trans ha hc9) (by decide)
          · exact absurd (le_trans hA hc9) (by decide)
          · rw [h0] at hc1
            exact absurd hc1 (by decide)
        simp [SudokuValue.fromChar, hnd, hcl] at hn
    · intro hn
      have hnd : ¬ ('1' ≤ c ∧ c ≤ '9') := fun h => hn (Or.inl h)
      have hncl : ¬ (('a' ≤ c ∧ c ≤ 'z') ∨ ('A' ≤ c ∧ c ≤ 'Z') ∨ c = '0') :=
        fun h => hn (Or.inr h)
      simp [SudokuValue.fromChar, hnd, hncl]

/-- Witness for C5: the digit character case applied at '5'. -/
theorem new_board_C5_witness :
    ('1' ≤ '5' ∧ '5' ≤ '9') ∧
    SudokuValue.fromChar '5' = some (.Known ('5'.toNat - 48)) :=
  ⟨by decide, (new_board_C5 []).2.2.1 '5' (by decide) (by decide)⟩

/-! ## Counting machinery: how `setSpace` and `remove` change the counts -/

theorem countP_set_add {α} (p : α → Bool) : ∀ (l : List α) (i : Nat) (x d : α),
    i < l.length →
    (l.set i x).countP p + (if p (l.getD i d) then 1 else 0) =
      l.countP p + (if p x then 1 else 0)
  | [], i, x, d, h => by simp at h
  | y :: ys, 0, x, d, _ => by
    simp only [List.set_cons_zero, List.countP_cons, List.getD_cons_zero]
    omega
  | y :: ys, i + 1, x, d, h => by
    simp only [List.set_cons_succ, List.countP_cons, List.getD_cons_succ]
    have := countP_set_add p ys i x d (by simpa using h)
    omega

theorem sum_map_set {α} (f : α → Nat) : ∀ (l : List α) (i : Nat) (x d : α),
    i < l.length →
    ((l.set i x).map f).sum + f (l.getD i d) = (l.map f).sum + f x
  | [], i, x, d, h => by simp at h
  | y :: ys, 0, x, d, _ => by
    simp only [List.set_cons_zero, List.map_cons, List.sum_cons, List.getD_cons_zero]
    omega
  | y :: ys, i + 1, x, d, h => by
    simp only [List.set_cons_succ, List.map_cons, List.sum_cons, List.getD_cons_succ]
    have := sum_map_set f ys i x d (by simpa using h)
    omega

/-- A point whose space reads `Unknown` is in range (out-of-range reads
default to `Known 0`). -/
theorem inRange_of_unknown {b : SudokuBoard} {p : Nat × Nat} {l : List Nat}
    (h : getSpace b p = .Unknown l) :
    p.1 < b.spaces.length ∧ p.2 < (b.spaces.getD p.1 []).length := by
  constructor
  · by_contra hc
    rw [not_lt] at hc
    rw [getSpace, List.getD_eq_default _ _ hc] at h
    simp at h
  · by_contra hc
    rw [not_lt] at hc
    rw [getSpace, List.getD_eq_default _ _ hc] at h
    exact SudokuValue.noConfusion h

/-- How one `setSpace` changes the number of unknown cells, in additive
form valid for every kind of old and new value. -/
theorem countU_setSpace {b : SudokuBoard} {p : Nat × Nat} (v : SudokuValue)
    (h1 : p.1 < b.spaces.length) (h2 : p.2 < (b.spaces.getD p.1 []).length) :
    countU (setSpace b p v) + (if (getSpace b p).isKnown then 0 else 1) =
      countU b + (if v.isKnown then 0 else 1) := by
  have houter : (((b.spaces.set p.1 ((b.spaces.getD p.1 []).set p.2 v)).map
        fun row => row.countP fun c => !c.isKnown).sum) +
      ((b.spaces.getD p.1 []).countP fun c => !c.isKnown) =
      ((b.spaces.map fun row => row.countP fun c => !c.isKnown).sum) +
      (((b.spaces.getD p.1 []).set p.2 v).countP fun c => !c.isKnown) :=
    sum_map_set (fun row => row.countP fun c => !c.isKnown)
      b.spaces p.1 ((b.spaces.getD p.1 []).set p.2 v) [] h1
  have hinner : (((b.spaces.getD p.1 []).set p.2 v).countP fun c => !c.isKnown) +
      (if !((b.spaces.getD p.1 []).getD p.2 (SudokuValue.Known 0)).isKnown then 1 else 0) =
      ((b.spaces.getD p.1 []).countP fun c => !c.isKnown) +
      (if !v.isKnown then 1 else 0) :=
    countP_set_add (fun c => !c.isKnown)
      (b.spaces.getD p.1 []) p.2 v (SudokuValue.Known 0) h2
  simp only [countU, setSpace, getSpace]
  rcases Bool.eq_false_or_eq_true
      ((b.spaces.getD p.1 []).getD p.2 (SudokuValue.Known 0)).isKnown with hbk | hbk <;>
    rcases Bool.eq_false_or_eq_true v.isKnown with hv | hv <;>
    simp only [hbk, hv, Bool.not_false, Bool.not_true, Bool.false_eq_true, if_true, if_false,
      if_neg (fun h => Bool.noConfusion h : ¬ false = true)] at hinner ⊢ <;>
    omega

/-- The candidate count of a single cell: the length of its candidate
vector, 0 for a known cell. -/
def cellCand : SudokuValue → Nat
  | .Known _ => 0
  | .Unknown l => l.length

/-- The total candidate count of a board (sum of candidate-set sizes). -/
def totalCand (b : SudokuBoard) : Nat :=
  (b.spaces.map fun row => (row.map cellCand).sum).sum

/-- How one `setSpace` changes the total candidate count. -/
theorem totalCand_setSpace {b : SudokuBoard} {p : Nat × Nat} (v : SudokuValue)
    (h1 : p.1 < b.spaces.length) (h2 : p.2 < (b.spaces.getD p.1 []).length) :
    totalCand (setSpace b p v) + cellCand (getSpace b p) =
      totalCand b + cellCand v := by
  have houter : (((b.spaces.set p.1 ((b.spaces.getD p.1 []).set p.2 v)).map
        fun row => (row.map cellCand).sum).sum) +
      ((b.spaces.getD p.1 []).map cellCand).sum =
      ((b.spaces.map fun row => (row.map cellCand).sum).sum) +
      (((b.spaces.getD p.1 []).set p.2 v).map cellCand).sum :=
    sum_map_set (fun row => (row.map cellCand).sum)
      b.spaces p.1 ((b.spaces.getD p.1 []).set p.2 v) [] h1
  have hinner : ((((b.spaces.getD p.1 []).set p.2 v).map cellCand).sum) +
      cellCand ((b.spaces.getD p.1 []).getD p.2 (SudokuValue.Known 0)) =
      (((b.spaces.getD p.1 []).map cellCand).sum) + cellCand v :=
    sum_map_set cellCand (b.spaces.getD p.1 []) p.2 v (SudokuValue.Known 0) h2
  simp only [setSpace, getSpace, totalCand]
  omega

/-- Setting the value just read back leaves the list unchanged. -/
theorem set_getD_self {α} (l : List α) (i : Nat) (d : α) (h : i < l.length) :
    l.set i (l.getD i d) = l := by
  apply List.ext_getElem?
  intro n
  by_cases hn : n = i
  · subst hn
    rw [List.getElem?_set_self h, List.getD_eq_getElem?_getD, List.getElem?_eq_getElem h]
    rfl
  · exact List.getElem?_set_ne (fun hh => hn hh.symm) ..

/-- Setting a space out of range leaves the board unchanged. -/
theorem setSpace_out_of_range {b : SudokuBoard} {p : Nat × Nat} (v : SudokuValue)
    (h : ¬ (p.1 < b.spaces.length ∧ p.2 < (b.spaces.getD p.1 []).length)) :
    setSpace b p v = b := by
  by_cases h1 : p.1 < b.spaces.length
  · have h2 : (b.spaces.getD p.1 []).length ≤ p.2 := by
      rcases not_and_or.1 h with hc | hc
      · exact absurd h1 hc
      · omega
    unfold setSpace
    rw [List.set_eq_of_length_le h2, set_getD_self _ _ _ h1]
  · have hge : b.spaces.length ≤ p.1 := by omega
    unfold setSpace
    rw [List.set_eq_of_length_le hge]

/-- Complete case analysis of a successful `remove`. -/
theorem remove_analysis {sv : SudokuValue} {w : Nat} {nv : SudokuValue}
    {res : SudokuValueResult} (h : sv.remove w = .ok (nv, res)) :
    (res = .possibleValueAlreadyRemoved ∧ nv = sv) ∨
    (∃ l i, sv = .Unknown l ∧ position w l = some i ∧ i < l.length ∧
      ((res = .valueNowKnown ∧ l.length = 2 ∧ ∃ d, nv = .Known d) ∨
        (res = .possibleValueRemoved ∧ nv = .Unknown (swapRemove l i) ∧
          (swapRemove l i).length + 1 = l.length ∧ (swapRemove l i).length ≠ 1))) := by
  cases sv with
  | Known x =>
    left
    by_cases hx : x = w
    · simp [SudokuValue.remove, hx] at h
    · simp [SudokuValue.remove, hx] at h
      exact ⟨h.2.symm, h.1.symm⟩
  | Unknown l =>
    cases hp : position w l with
    | none =>
      left
      simp [SudokuValue.remove, hp] at h
      exact ⟨h.2.symm, h.1.symm⟩
    | some i =>
      right
      obtain ⟨hilt, _⟩ := position_spec hp
      have hlen : (swapRemove l i).length + 1 = l.length := by
        have := (swapRemove_perm l i hilt).length_eq
        simpa using this
      refine ⟨l, i, rfl, hp, hilt, ?_⟩
      by_cases h1 : (swapRemove l i).length = 1
      · left
        simp [SudokuValue.remove, hp, h1] at h
        refine ⟨h.2.symm, by omega, ?_⟩
        exact ⟨_, h.1.symm⟩
      · right
        simp [SudokuValue.remove, hp, h1] at h
        exact ⟨h.2.symm, h.1.symm, hlen, h1⟩


/-! ## The candidate invariant and transport lemmas -/

/-- Unconditional form: writing back the value just read is a no-op. -/
theorem set_getD_self' {α} (l : List α) (i : Nat) (d : α) :
    l.set i (l.getD i d) = l := by
  by_cases h : i < l.length
  · exact set_getD_self l i d h
  · exact List.set_eq_of_length_le (by omega)

/-- Writing back the space just read leaves the board unchanged. -/
theorem setSpace_get_self (b : SudokuBoard) (p : Nat × Nat) :
    setSpace b p (getSpace b p) = b := by
  unfold setSpace getSpace
  rw [set_getD_self', set_getD_self']

/-- `setSpace` never changes the row lengths. -/
theorem shape_setSpace (b : SudokuBoard) (p : Nat × Nat) (v : SudokuValue) :
    (setSpace b p v).spaces.map List.length = b.spaces.map List.length := by
  unfold setSpace
  simp only [List.map_set, List.length_set]
  have : ((b.spaces.getD p.1 []).length) = (b.spaces.map List.length).getD p.1 ([] : List SudokuValue).length := by
    rw [List.getD_map]
  rw [this, set_getD_self']

/-- What the cells of a reachable board look like: a known cell is
unconstrained; an unknown cell has at least two distinct candidates, all
digits 1–9. -/
def CandCell : SudokuValue → Prop
  | .Known _ => True
  | .Unknown l => 2 ≤ l.length ∧ l.Nodup ∧ ∀ x ∈ l, 1 ≤ x ∧ x ≤ 9

/-- C9's invariant for a whole board. -/
def CandInv (b : SudokuBoard) : Prop :=
  ∀ row ∈ b.spaces, ∀ c ∈ row, CandCell c

theorem getD_mem {α} (l : List α) (i : Nat) (d : α) (h : i < l.length) : l.getD i d ∈ l := by
  rw [List.getD_eq_getElem?_getD, List.getElem?_eq_getElem h]
  exact List.getElem_mem h

theorem candInv_getSpace {b : SudokuBoard} (h : CandInv b) (p : Nat × Nat) :
    CandCell (getSpace b p) := by
  by_cases h1 : p.1 < b.spaces.length
  · by_cases h2 : p.2 < (b.spaces.getD p.1 []).length
    · exact h _ (getD_mem _ _ _ h1) _ (getD_mem _ _ _ h2)
    · unfold getSpace
      rw [List.getD_eq_default _ _ (Nat.le_of_not_lt h2)]
      trivial
  · unfold getSpace
    rw [List.getD_eq_default _ _ (Nat.le_of_not_lt h1)]
    trivial

/-- `remove` preserves the per-cell candidate invariant. -/
theorem candCell_remove {sv : SudokuValue} {w : Nat} {nv : SudokuValue}
    {res : SudokuValueResult} (h : sv.remove w = .ok (nv, res))
    (hc : CandCell sv) : CandCell nv := by
  rcases remove_analysis h with ⟨_, rfl⟩ | ⟨l, i, rfl, hp, hilt, hcase⟩
  · exact hc
  · rcases hcase with ⟨_, _, d, rfl⟩ | ⟨_, rfl, hlen, hne1⟩
    · trivial
    · obtain ⟨hl2, hnd, hbound⟩ := hc
      have hperm := swapRemove_perm l i hilt
      have hnd' : (swapRemove l i).Nodup := by
        have := hperm.nodup_iff.2 hnd
        exact (List.nodup_append.1 this).1
      refine ⟨by omega, hnd', ?_⟩
      intro x hx
      have hxl : x ∈ l := hperm.mem_iff.1 (List.mem_append.2 (Or.inl hx))
      exact hbound x hxl

/-- `setSpace` with a good cell preserves the board invariant. -/
theorem candInv_setSpace {b : SudokuBoard} {p : Nat × Nat} {v : SudokuValue}
    (hb : CandInv b) (hv : CandCell v) : CandInv (setSpace b p v) := by
  intro row hrow c hc
  rcases List.mem_or_eq_of_mem_set hrow with hrow | rfl
  · exact hb row hrow c hc
  · rcases List.mem_or_eq_of_mem_set hc with hc | rfl
    · by_cases h1 : p.1 < b.spaces.length
      · exact hb _ (getD_mem _ _ _ h1) c hc
      · rw [List.getD_eq_default _ _ (Nat.le_of_not_lt h1)] at hc
        simp at hc
    · exact hv

/-- Case analysis of a successful direct assignment in `fill_space`. -/
theorem fillDirect_analysis {b : SudokuBoard} {p : Nat × Nat} {v : Nat}
    {out : SudokuBoard × Nat} (h : fillDirect b p v = .ok out) :
    (getSpace b p = .Known v ∧ out = (b, 0)) ∨
    (∃ l, getSpace b p = .Unknown l ∧ v ∈ l ∧
      out = (decEmpty (setSpace b p (.Known v)), 1)) := by
  unfold fillDirect at h
  cases hg : getSpace b p with
  | Known x =>
    rw [hg] at h
    by_cases hx : x = v
    · subst hx
      left
      simp at h
      exact ⟨rfl, h.symm⟩
    · simp [hx] at h
  | Unknown l =>
    rw [hg] at h
    by_cases hv : v ∈ l
    · right
      simp [hv] at h
      exact ⟨l, rfl, hv, h.symm⟩
    · simp [hv] at h

theorem countU_decEmpty (b : SudokuBoard) : countU (decEmpty b) = countU b := rfl

theorem totalCand_decEmpty (b : SudokuBoard) : totalCand (decEmpty b) = totalCand b := rfl

/-- Everything a single `fill_space` call (with accumulator already at
`acc` when entering the remaining adjacency loop) guarantees about its
output: unknown count and candidate total never grow, the shape is
unchanged, on success the `empty_spaces`/`countU` slack is preserved and
the returned count never exceeds the unknown cells consumed, and the
candidate invariant is preserved. -/
def FillMaster (b b' : SudokuBoard) (r : Except FillError Nat) (acc : Nat) : Prop :=
  countU b' ≤ countU b ∧
  totalCand b' ≤ totalCand b ∧
  b'.spaces.map List.length = b.spaces.map List.length ∧
  (∀ n, r = .ok n →
    (∀ k, b.empty_spaces = countU b + k → b'.empty_spaces = countU b' + k) ∧
    countU b' + n ≤ countU b + acc) ∧
  (CandInv b → CandInv b')

theorem fillMaster_refl_ok (b : SudokuBoard) (acc : Nat) : FillMaster b b (.ok acc) acc :=
  ⟨le_refl _, le_refl _, rfl, fun n hn => by
    cases hn
    exact ⟨fun _ hk => hk, le_refl _⟩, fun hc => hc⟩

theorem fillMaster_refl_err (b : SudokuBoard) (e : FillError) (acc : Nat) :
    FillMaster b b (.error e) acc :=
  ⟨le_refl _, le_refl _, rfl, fun _ hn => Except.noConfusion hn, fun hc => hc⟩

theorem fillLoopG_master (recur :
      SudokuBoard → Nat × Nat → Nat → Option (SudokuBoard × Except FillError Nat))
    (hrec : ∀ b q w b' r, recur b q w = some (b', r) → FillMaster b b' r 0) (v : Nat) :
    ∀ (pts : List (Nat × Nat)) (b : SudokuBoard) (acc : Nat) (b' : SudokuBoard)
      (r : Except FillError Nat),
      fillLoopG recur b v pts acc = some (b', r) → FillMaster b b' r acc
  | [], b, acc, b', r, h => by
    simp only [fillLoopG] at h
    obtain ⟨rfl, rfl⟩ : b = b' ∧ Except.ok acc = r := by
      cases h
      exact ⟨rfl, rfl⟩
    exact fillMaster_refl_ok b acc
  | q :: rest, b, acc, b', r, h => by
    cases hrem : (getSpace b q).remove v with
    | error e =>
      simp only [fillLoopG, hrem] at h
      obtain ⟨rfl, rfl⟩ : b = b' ∧ Except.error FillError.unsolvable = r := by
        cases h
        exact ⟨rfl, rfl⟩
      exact fillMaster_refl_err b .unsolvable acc
    | ok pr =>
      obtain ⟨nv, res⟩ := pr
      rcases remove_analysis hrem with ⟨hres, hnv⟩ | ⟨l, i, hsv, hp, hilt, hcase⟩
      · -- PossibleValueAlreadyRemoved: no mutation at all
        subst hres
        subst hnv
        simp only [fillLoopG, hrem, setSpace_get_self] at h
        exact fillLoopG_master recur hrec v rest b acc b' r h
      · obtain ⟨h1, h2⟩ := inRange_of_unknown hsv
        rcases hcase with ⟨hres, hl2, d, hnv⟩ | ⟨hres, hnv, hlen, hne1⟩
        · -- ValueNowKnown: the adjacent cell becomes Known d
          subst hres
          subst hnv
          have hcu : countU (setSpace b q (.Known d)) + 1 = countU b := by
            have := countU_setSpace (b := b) (p := q) (.Known d) h1 h2
            rw [hsv] at this
            simpa [SudokuValue.isKnown] using this
          have htc : totalCand (setSpace b q (.Known d)) + l.length = totalCand b := by
            have := totalCand_setSpace (b := b) (p := q) (.Known d) h1 h2
            rw [hsv] at this
            simpa [cellCand] using this
          have hsh : (setSpace b q (.Known d)).spaces.map List.length =
              b.spaces.map List.length := shape_setSpace b q _
          have hci : CandInv b → CandInv (setSpace b q (.Known d)) :=
            fun hc => candInv_setSpace hc trivial
          have hemp : (setSpace b q (.Known d)).empty_spaces = b.empty_spaces := rfl
          cases hrecur : recur (setSpace b q (.Known d)) q d with
          | none =>
            simp only [fillLoopG, hrem, hrecur] at h
            exact Option.noConfusion h
          | some out2 =>
            obtain ⟨b2, r2⟩ := out2
            have hm2 := hrec _ _ _ _ _ hrecur
            obtain ⟨hm2cu, hm2tc, hm2sh, hm2ok, hm2ci⟩ := hm2
            cases r2 with
            | error e =>
              simp only [fillLoopG, hrem, hrecur] at h
              obtain ⟨rfl, rfl⟩ : b2 = b' ∧ Except.error e = r := by
                cases h
                exact ⟨rfl, rfl⟩
              refine ⟨by omega, by omega, hm2sh.trans hsh,
                fun n hn => Except.noConfusion hn, fun hc => hm2ci (hci hc)⟩
            | ok m =>
              simp only [fillLoopG, hrem, hrecur] at h
              have ihm := fillLoopG_master recur hrec v rest (decEmpty b2) (acc + 1) b' r h
              obtain ⟨ihcu, ihtc, ihsh, ihok, ihci⟩ := ihm
              rw [countU_decEmpty] at ihcu
              rw [totalCand_decEmpty] at ihtc
              refine ⟨by omega, by omega, by rw [ihsh]; exact hm2sh.trans hsh, ?_,
                fun hc => ihci (hm2ci (hci hc))⟩
              intro n hn
              obtain ⟨ihslack, ihcnt⟩ := ihok n hn
              constructor
              · intro k hk
                have hk1 : (setSpace b q (.Known d)).empty_spaces =
                    countU (setSpace b q (.Known d)) + (k + 1) := by
                  rw [hemp, hk]
                  omega
                obtain ⟨hsl2, _⟩ := hm2ok m rfl
                have hk2 := hsl2 (k + 1) hk1
                have hk3 : (decEmpty b2).empty_spaces = countU (decEmpty b2) + k := by
                  rw [countU_decEmpty]
                  show b2.empty_spaces - 1 = countU b2 + k
                  omega
                exact ihslack k hk3
              · rw [countU_decEmpty] at ihcnt
                have := (hm2ok m rfl).2
                omega
        · -- PossibleValueRemoved: the adjacent cell shrinks by one candidate
          subst hres
          subst hnv
          have hcu : countU (setSpace b q (.Unknown (swapRemove l i))) = countU b := by
            have := countU_setSpace (b := b) (p := q) (.Unknown (swapRemove l i)) h1 h2
            rw [hsv] at this
            simpa [SudokuValue.isKnown] using this
          have htc : totalCand (setSpace b q (.Unknown (swapRemove l i))) + l.length =
              totalCand b + (swapRemove l i).length := by
            have := totalCand_setSpace (b := b) (p := q) (.Unknown (swapRemove l i)) h1 h2
            rw [hsv] at this
            simpa [cellCand] using this
          have hsh : (setSpace b q (.Unknown (swapRemove l i))).spaces.map List.length =
              b.spaces.map List.length := shape_setSpace b q _
          have hci : CandInv b → CandInv (setSpace b q (.Unknown (swapRemove l i))) := by
            intro hc
            exact candInv_setSpace hc (candCell_remove hrem (candInv_getSpace hc q))
          have hemp : (setSpace b q (.Unknown (swapRemove l i))).empty_spaces =
              b.empty_spaces := rfl
          simp only [fillLoopG, hrem] at h
          have ihm := fillLoopG_master recur hrec v rest
            (setSpace b q (.Unknown (swapRemove l i))) acc b' r h
          obtain ⟨ihcu, ihtc, ihsh, ihok, ihci⟩ := ihm
          refine ⟨by omega, by omega, by rw [ihsh]; exact hsh, ?_, fun hc => ihci (hci hc)⟩
          intro n hn
          obtain ⟨ihslack, ihcnt⟩ := ihok n hn
          constructor
          · intro k hk
            refine ihslack k ?_
            rw [hemp, hcu, hk]
          · omega

theorem fillSpaceF_master : ∀ (fuel : Nat) (b : SudokuBoard) (p : Nat × Nat) (v : Nat)
    (b' : SudokuBoard) (r : Except FillError Nat),
    fillSpaceF fuel b p v = some (b', r) → FillMaster b b' r 0
  | 0, _, _, _, _, _, h => by simp [fillSpaceF] at h
  | fuel + 1, b, p, v, b', r, h => by
    cases hd : fillDirect b p v with
    | error e =>
      simp only [fillSpaceF, hd] at h
      obtain ⟨rfl, rfl⟩ : b = b' ∧ Except.error e = r := by
        cases h
        exact ⟨rfl, rfl⟩
      exact fillMaster_refl_err b e 0
    | ok pr =>
      obtain ⟨b1, n0⟩ := pr
      simp only [fillSpaceF, hd] at h
      have hloop := fillLoopG_master (fillSpaceF fuel)
        (fun bb qq ww bb' rr hh => fillSpaceF_master fuel bb qq ww bb' rr hh) v
        (adjacentSpaces p) b1 n0 b' r h
      rcases fillDirect_analysis hd with ⟨hk, heq⟩ | ⟨l, hu, hvin, heq⟩
      · obtain ⟨rfl, rfl⟩ : b1 = b ∧ n0 = 0 := by
          cases heq
          exact ⟨rfl, rfl⟩
        exact hloop
      · obtain ⟨rfl, rfl⟩ : b1 = decEmpty (setSpace b p (.Known v)) ∧ n0 = 1 := by
          cases heq
          exact ⟨rfl, rfl⟩
        obtain ⟨h1, h2⟩ := inRange_of_unknown hu
        have hcu : countU (decEmpty (setSpace b p (.Known v))) + 1 = countU b := by
          rw [countU_decEmpty]
          have := countU_setSpace (b := b) (p := p) (.Known v) h1 h2
          rw [hu] at this
          simpa [SudokuValue.isKnown] using this
        have htc : totalCand (decEmpty (setSpace b p (.Known v))) + l.length = totalCand b := by
          rw [totalCand_decEmpty]
          have := totalCand_setSpace (b := b) (p := p) (.Known v) h1 h2
          rw [hu] at this
          simpa [cellCand] using this
        have hsh : (decEmpty (setSpace b p (.Known v))).spaces.map List.length =
            b.spaces.map List.length := shape_setSpace b p _
        have hci : CandInv b → CandInv (decEmpty (setSpace b p (.Known v))) :=
          fun hc => candInv_setSpace hc trivial
        have hemp : (decEmpty (setSpace b p (.Known v))).empty_spaces =
            b.empty_spaces - 1 := rfl
        obtain ⟨hlcu, hltc, hlsh, hlok, hlci⟩ := hloop
        refine ⟨by omega, by omega, hlsh.trans hsh, ?_, fun hc => hlci (hci hc)⟩
        intro n hn
        obtain ⟨hlslack, hlcnt⟩ := hlok n hn
        constructor
        · intro k hk
          refine hlslack k ?_
          omega
        · omega


/-! ## Lifting the master facts through `narrow`, `narrow_full`,
`inital_check` and `solve` -/

/-- Facts holding across any operation outcome: unknown count and
candidate total never grow, the shape is unchanged, and the candidate
invariant is preserved. -/
def BoardLe (b b' : SudokuBoard) : Prop :=
  countU b' ≤ countU b ∧ totalCand b' ≤ totalCand b ∧
  b'.spaces.map List.length = b.spaces.map List.length ∧
  (CandInv b → CandInv b')

/-- The `empty_spaces = countU + k` slack is carried over. -/
def SlackPres (b b' : SudokuBoard) : Prop :=
  ∀ k, b.empty_spaces = countU b + k → b'.empty_spaces = countU b' + k

theorem boardLe_refl (b : SudokuBoard) : BoardLe b b :=
  ⟨le_refl _, le_refl _, rfl, fun hc => hc⟩

theorem boardLe_trans {a b c : SudokuBoard} (h1 : BoardLe a b) (h2 : BoardLe b c) :
    BoardLe a c :=
  ⟨le_trans h2.1 h1.1, le_trans h2.2.1 h1.2.1, h2.2.2.1.trans h1.2.2.1,
    fun hc => h2.2.2.2 (h1.2.2.2 hc)⟩

theorem fillMaster_boardLe {b b' : SudokuBoard} {r : Except FillError Nat} {acc : Nat}
    (h : FillMaster b b' r acc) : BoardLe b b' :=
  ⟨h.1, h.2.1, h.2.2.1, h.2.2.2.2⟩

theorem fillMaster_slack {b b' : SudokuBoard} {n acc : Nat}
    (h : FillMaster b b' (.ok n) acc) : SlackPres b b' :=
  (h.2.2.2.1 n rfl).1

/-- Weaken an error-result master to any accumulator. -/
theorem fillMaster_err_acc {b b' : SudokuBoard} {e : FillError} {acc acc' : Nat}
    (h : FillMaster b b' (.error e) acc) : FillMaster b b' (.error e) acc' :=
  ⟨h.1, h.2.1, h.2.2.1, fun _ hn => Except.noConfusion hn, h.2.2.2.2⟩

/-- Shift a call-level master (`acc = 0`) to a loop-level accumulator. -/
theorem fillMaster_shift {b b' : SudokuBoard} {n acc : Nat}
    (h : FillMaster b b' (.ok n) 0) : FillMaster b b' (.ok (acc + n)) acc := by
  obtain ⟨h1, h2, h3, h4, h5⟩ := h
  obtain ⟨hs, hc⟩ := h4 n rfl
  refine ⟨h1, h2, h3, ?_, h5⟩
  intro m hm
  cases hm
  exact ⟨hs, by omega⟩

/-- Compose two successive masters. -/
theorem fillMaster_comp {b b1 b' : SudokuBoard} {r : Except FillError Nat} {acc acc' : Nat}
    (h1 : FillMaster b b1 (.ok acc') acc) (h2 : FillMaster b1 b' r acc') :
    FillMaster b b' r acc := by
  obtain ⟨h1cu, h1tc, h1sh, h1ok, h1ci⟩ := h1
  obtain ⟨hs1, hc1⟩ := h1ok acc' rfl
  obtain ⟨h2cu, h2tc, h2sh, h2ok, h2ci⟩ := h2
  refine ⟨by omega, by omega, h2sh.trans h1sh, ?_, fun hc => h2ci (h1ci hc)⟩
  intro n hn
  obtain ⟨hs2, hc2⟩ := h2ok n hn
  exact ⟨fun k hk => hs2 k (hs1 k hk), by omega⟩

theorem narrowValues_master (fuel : Nat) :
    ∀ (values : List Nat) (b : SudokuBoard) (unit : List (Nat × Nat)) (acc : Nat)
      (b' : SudokuBoard) (r : Except FillError Nat),
      narrowValues fuel b unit values acc = some (b', r) → FillMaster b b' r acc
  | [], b, unit, acc, b', r, h => by
    simp only [narrowValues] at h
    obtain ⟨rfl, rfl⟩ : b = b' ∧ Except.ok acc = r := by
      cases h
      exact ⟨rfl, rfl⟩
    exact fillMaster_refl_ok b acc
  | value :: vrest, b, unit, acc, b', r, h => by
    cases hscan : scanUnit b value unit none with
    | skipValue =>
      simp only [narrowValues, hscan] at h
      exact narrowValues_master fuel vrest b unit acc b' r h
    | noPlace =>
      simp only [narrowValues, hscan] at h
      obtain ⟨rfl, rfl⟩ : b = b' ∧ Except.error FillError.unsolvable = r := by
        cases h
        exact ⟨rfl, rfl⟩
      exact fillMaster_refl_err b .unsolvable acc
    | fillAt point =>
      cases hfill : fillSpaceF fuel b point value with
      | none =>
        simp only [narrowValues, hscan, hfill] at h
        exact Option.noConfusion h
      | some out1 =>
        obtain ⟨b1, r1⟩ := out1
        have hm1 := fillSpaceF_master fuel b point value b1 r1 hfill
        cases r1 with
        | error e =>
          simp only [narrowValues, hscan, hfill] at h
          obtain ⟨rfl, rfl⟩ : b1 = b' ∧ Except.error e = r := by
            cases h
            exact ⟨rfl, rfl⟩
          exact fillMaster_err_acc hm1
        | ok n =>
          simp only [narrowValues, hscan, hfill] at h
          have ihm := narrowValues_master fuel vrest b1 unit (acc + n) b' r h
          exact fillMaster_comp (fillMaster_shift hm1) ihm

theorem narrowUnits_master (fuel : Nat) :
    ∀ (units : List (List (Nat × Nat))) (b : SudokuBoard) (acc : Nat)
      (b' : SudokuBoard) (r : Except FillError Nat),
      narrowUnits fuel b units acc = some (b', r) → FillMaster b b' r acc
  | [], b, acc, b', r, h => by
    simp only [narrowUnits] at h
    obtain ⟨rfl, rfl⟩ : b = b' ∧ Except.ok acc = r := by
      cases h
      exact ⟨rfl, rfl⟩
    exact fillMaster_refl_ok b acc
  | unit :: urest, b, acc, b', r, h => by
    cases hnv : narrowValues fuel b unit ((List.range 9).map (· + 1)) acc with
    | none =>
      simp only [narrowUnits, hnv] at h
      exact Option.noConfusion h
    | some out1 =>
      obtain ⟨b1, r1⟩ := out1
      have hm1 := narrowValues_master fuel _ b unit acc b1 r1 hnv
      cases r1 with
      | error e =>
        simp only [narrowUnits, hnv] at h
        obtain ⟨rfl, rfl⟩ : b1 = b' ∧ Except.error e = r := by
          cases h
          exact ⟨rfl, rfl⟩
        exact hm1
      | ok acc' =>
        simp only [narrowUnits, hnv] at h
        exact fillMaster_comp hm1 (narrowUnits_master fuel urest b1 acc' b' r h)

theorem narrowF_master {fuel : Nat} {b b' : SudokuBoard} {r : Except FillError Nat}
    (h : narrowF fuel b = some (b', r)) : FillMaster b b' r 0 :=
  narrowUnits_master fuel getAllFullCoordinates b 0 b' r h

theorem slackPres_refl (b : SudokuBoard) : SlackPres b b := fun _ hk => hk

theorem slackPres_trans {a b c : SudokuBoard} (h1 : SlackPres a b) (h2 : SlackPres b c) :
    SlackPres a c := fun k hk => h2 k (h1 k hk)

theorem narrowFullF_master : ∀ (lf fuel : Nat) (b b' : SudokuBoard)
    (r : Except FillError Bool),
    narrowFullF lf fuel b = some (b', r) →
    BoardLe b b' ∧ (∀ s, r = .ok s → SlackPres b b')
  | 0, _, _, _, _, h => by simp [narrowFullF] at h
  | lf + 1, fuel, b, b', r, h => by
    cases hn : narrowF fuel b with
    | none =>
      simp only [narrowFullF, hn] at h
      exact Option.noConfusion h
    | some out1 =>
      obtain ⟨b1, r1⟩ := out1
      cases r1 with
      | error e =>
        simp only [narrowFullF, hn] at h
        obtain ⟨rfl, rfl⟩ : b1 = b' ∧ Except.error e = r := by
          cases h
          exact ⟨rfl, rfl⟩
        exact ⟨fillMaster_boardLe (narrowF_master hn), fun s hs => Except.noConfusion hs⟩
      | ok n =>
        have hm1 := narrowF_master hn
        by_cases hcond : 0 < n ∧ ¬ isSolved b1 = true
        · have hrw : narrowFullF (lf + 1) fuel b = narrowFullF lf fuel b1 := by
            simp only [narrowFullF, hn, if_pos hcond]
          rw [hrw] at h
          obtain ⟨ihle, ihsl⟩ := narrowFullF_master lf fuel b1 b' r h
          exact ⟨boardLe_trans (fillMaster_boardLe hm1) ihle,
            fun s hs => slackPres_trans (fillMaster_slack hm1) (ihsl s hs)⟩
        · have hrw : narrowFullF (lf + 1) fuel b = some (b1, .ok (isSolved b1)) := by
            simp only [narrowFullF, hn, if_neg hcond]
          rw [hrw] at h
          obtain ⟨rfl, rfl⟩ : b1 = b' ∧ Except.ok (isSolved b1) = r := by
            cases h
            exact ⟨rfl, rfl⟩
          exact ⟨fillMaster_boardLe hm1, fun s hs => fillMaster_slack hm1⟩

theorem icAdj_master : ∀ (pts : List (Nat × Nat)) (b : SudokuBoard)
    (queue : List (Nat × Nat × Nat)) (sv : Nat) (b1 : SudokuBoard)
    (res : Except Unit (List (Nat × Nat × Nat))),
    icAdj b queue sv pts = (b1, res) →
    BoardLe b b1 ∧ SlackPres b b1 ∧
    (∀ queue', res = .ok queue' → queue'.length + countU b1 = queue.length + countU b)
  | [], b, queue, sv, b1, res, h => by
    simp only [icAdj] at h
    obtain ⟨rfl, rfl⟩ : b = b1 ∧ Except.ok queue = res := by
      cases h
      exact ⟨rfl, rfl⟩
    refine ⟨boardLe_refl b, slackPres_refl b, ?_⟩
    intro queue' hq
    cases hq
    rfl
  | q :: rest, b, queue, sv, b1, res, h => by
    cases hrem : (getSpace b q).remove sv with
    | error e =>
      simp only [icAdj, hrem] at h
      obtain ⟨rfl, rfl⟩ : b = b1 ∧ Except.error () = res := by
        cases h
        exact ⟨rfl, rfl⟩
      exact ⟨boardLe_refl b, slackPres_refl b, fun _ hq => Except.noConfusion hq⟩
    | ok pr =>
      obtain ⟨nv, res0⟩ := pr
      rcases remove_analysis hrem with ⟨hres, hnv⟩ | ⟨l, i, hsv, hp, hilt, hcase⟩
      · subst hres
        subst hnv
        simp only [icAdj, hrem, setSpace_get_self] at h
        exact icAdj_master rest b queue sv b1 res h
      · obtain ⟨h1, h2⟩ := inRange_of_unknown hsv
        rcases hcase with ⟨hres, hl2, d, hnv⟩ | ⟨hres, hnv, hlen, hne1⟩
        · subst hres
          subst hnv
          have hcu : countU (setSpace b q (.Known d)) + 1 = countU b := by
            have := countU_setSpace (b := b) (p := q) (.Known d) h1 h2
            rw [hsv] at this
            simpa [SudokuValue.isKnown] using this
          have htc : totalCand (setSpace b q (.Known d)) + l.length = totalCand b := by
            have := totalCand_setSpace (b := b) (p := q) (.Known d) h1 h2
            rw [hsv] at this
            simpa [cellCand] using this
          have hle : BoardLe b (decEmpty (setSpace b q (.Known d))) := by
            refine ⟨by rw [countU_decEmpty]; omega, by rw [totalCand_decEmpty]; omega,
              shape_setSpace b q _, fun hc => candInv_setSpace hc trivial⟩
          have hsl : SlackPres b (decEmpty (setSpace b q (.Known d))) := by
            intro k hk
            rw [countU_decEmpty]
            show (setSpace b q (.Known d)).empty_spaces - 1 = countU (setSpace b q (.Known d)) + k
            have hemp : (setSpace b q (.Known d)).empty_spaces = b.empty_spaces := rfl
            omega
          simp only [icAdj, hrem] at h
          obtain ⟨ihle, ihsl, ihq⟩ := icAdj_master rest (decEmpty (setSpace b q (.Known d)))
            (queue ++ [(q.1, q.2, d)]) sv b1 res h
          refine ⟨boardLe_trans hle ihle, slackPres_trans hsl ihsl, ?_⟩
          intro queue' hq
          have := ihq queue' hq
          rw [countU_decEmpty] at this
          simp only [List.length_append, List.length_singleton] at this
          omega
        · subst hres
          subst hnv
          have hcu : countU (setSpace b q (.Unknown (swapRemove l i))) = countU b := by
            have := countU_setSpace (b := b) (p := q) (.Unknown (swapRemove l i)) h1 h2
            rw [hsv] at this
            simpa [SudokuValue.isKnown] using this
          have htc : totalCand (setSpace b q (.Unknown (swapRemove l i))) + l.length =
              totalCand b + (swapRemove l i).length := by
            have := totalCand_setSpace (b := b) (p := q) (.Unknown (swapRemove l i)) h1 h2
            rw [hsv] at this
            simpa [cellCand] using this
          have hle : BoardLe b (setSpace b q (.Unknown (swapRemove l i))) := by
            refine ⟨by omega, by omega, shape_setSpace b q _,
              fun hc => candInv_setSpace hc (candCell_remove hrem (candInv_getSpace hc q))⟩
          have hsl : SlackPres b (setSpace b q (.Unknown (swapRemove l i))) := by
            intro k hk
            rw [hcu]
            exact hk
          simp only [icAdj, hrem] at h
          obtain ⟨ihle, ihsl, ihq⟩ := icAdj_master rest (setSpace b q (.Unknown (swapRemove l i)))
            queue sv b1 res h
          refine ⟨boardLe_trans hle ihle, slackPres_trans hsl ihsl, ?_⟩
          intro queue' hq
          have := ihq queue' hq
          omega

theorem icLoop_master : ∀ (fuel : Nat) (b : SudokuBoard) (queue : List (Nat × Nat × Nat))
    (b' : SudokuBoard) (res : Except Unit Unit),
    icLoop fuel b queue = some (b', res) → BoardLe b b' ∧ SlackPres b b'
  | fuel, b, [], b', res, h => by
    simp only [icLoop] at h
    obtain ⟨rfl, rfl⟩ : b = b' ∧ Except.ok () = res := by
      cases fuel <;> cases h <;> exact ⟨rfl, rfl⟩
    exact ⟨boardLe_refl b, slackPres_refl b⟩
  | 0, b, e :: qrest, b', res, h => by
    simp only [icLoop] at h
    exact Option.noConfusion h
  | fuel + 1, b, (x, y, sv) :: qrest, b', res, h => by
    cases hadj : icAdj b qrest sv (adjacentSpaces (x, y)) with
    | mk b1 res1 =>
      obtain ⟨hle, hsl, hq⟩ := icAdj_master _ b qrest sv b1 res1 hadj
      cases res1 with
      | error e =>
        simp only [icLoop, hadj] at h
        obtain ⟨rfl, rfl⟩ : b1 = b' ∧ Except.error () = res := by
          cases h
          exact ⟨rfl, rfl⟩
        exact ⟨hle, hsl⟩
      | ok queue' =>
        simp only [icLoop, hadj] at h
        obtain ⟨ihle, ihsl⟩ := icLoop_master fuel b1 queue' b' res h
        exact ⟨boardLe_trans hle ihle, slackPres_trans hsl ihsl⟩

theorem initalCheckF_master {fuel : Nat} {b b' : SudokuBoard} {res : Except Unit Unit}
    (h : initalCheckF fuel b = some (b', res)) : BoardLe b b' ∧ SlackPres b b' := by
  unfold initalCheckF at h
  have hstep : BoardLe b { b with initalised := true } ∧
      SlackPres b { b with initalised := true } :=
    ⟨⟨le_refl _, le_refl _, rfl, fun hc => hc⟩, fun _ hk => hk⟩
  obtain ⟨hle, hsl⟩ := icLoop_master fuel _ _ b' res h
  exact ⟨boardLe_trans hstep.1 hle, slackPres_trans hstep.2 hsl⟩

theorem getSpace_setSpace_self {b : SudokuBoard} {p : Nat × Nat} (v : SudokuValue)
    (h1 : p.1 < b.spaces.length) (h2 : p.2 < (b.spaces.getD p.1 []).length) :
    getSpace (setSpace b p v) p = v := by
  unfold getSpace setSpace
  have houter : ((b.spaces.set p.1 ((b.spaces.getD p.1 []).set p.2 v)).getD p.1 []) =
      (b.spaces.getD p.1 []).set p.2 v := by
    rw [List.getD_eq_getElem?_getD, List.getElem?_set_self h1]
    rfl
  rw [houter, List.getD_eq_getElem?_getD, List.getElem?_set_self h2]
  rfl

theorem solveRemoveGuess_master (b : SudokuBoard) (point : Nat × Nat) (gv : Nat) :
    (∀ b' s, solveRemoveGuess b point gv = .done b' s →
      BoardLe b b' ∧ (s = true → SlackPres b b')) ∧
    (∀ b', solveRemoveGuess b point gv = .again b' → BoardLe b b' ∧ SlackPres b b') := by
  cases hrem : (getSpace b point).remove gv with
  | error e =>
    constructor
    · intro b' s h
      simp only [solveRemoveGuess, hrem] at h
      obtain ⟨rfl, rfl⟩ : b = b' ∧ false = s := by
        cases h
        exact ⟨rfl, rfl⟩
      exact ⟨boardLe_refl b, fun hs => Bool.noConfusion hs⟩
    · intro b' h
      simp only [solveRemoveGuess, hrem] at h
      exact LoopStep.noConfusion h
  | ok pr =>
    obtain ⟨nv, res0⟩ := pr
    rcases remove_analysis hrem with ⟨hres, hnv⟩ | ⟨l, i, hsv, hp, hilt, hcase⟩
    · subst hres
      subst hnv
      constructor
      · intro b' s h
        simp only [solveRemoveGuess, hrem, setSpace_get_self] at h
        exact LoopStep.noConfusion h
      · intro b' h
        simp only [solveRemoveGuess, hrem, setSpace_get_self] at h
        cases h
        exact ⟨boardLe_refl b, slackPres_refl b⟩
    · obtain ⟨h1, h2⟩ := inRange_of_unknown hsv
      rcases hcase with ⟨hres, hl2, d, hnv⟩ | ⟨hres, hnv, hlen, hne1⟩
      · -- the guessed space became Known d
        subst hres
        subst hnv
        have hcu : countU (setSpace b point (.Known d)) + 1 = countU b := by
          have := countU_setSpace (b := b) (p := point) (.Known d) h1 h2
          rw [hsv] at this
          simpa [SudokuValue.isKnown] using this
        have htc : totalCand (setSpace b point (.Known d)) + l.length = totalCand b := by
          have := totalCand_setSpace (b := b) (p := point) (.Known d) h1 h2
          rw [hsv] at this
          simpa [cellCand] using this
        have hle2 : BoardLe b (decEmpty (setSpace b point (.Known d))) := by
          refine ⟨by rw [countU_decEmpty]; omega, by rw [totalCand_decEmpty]; omega,
            shape_setSpace b point _, fun hc => candInv_setSpace hc trivial⟩
        have hsl2 : SlackPres b (decEmpty (setSpace b point (.Known d))) := by
          intro k hk
          rw [countU_decEmpty]
          show (setSpace b point (.Known d)).empty_spaces - 1 =
            countU (setSpace b point (.Known d)) + k
          have hemp : (setSpace b point (.Known d)).empty_spaces = b.empty_spaces := rfl
          omega
        have hget2 : getSpace (decEmpty (setSpace b point (.Known d))) point = .Known d := by
          show getSpace (setSpace b point (.Known d)) point = .Known d
          exact getSpace_setSpace_self _ h1 h2
        cases hfill : fillSpaceF (countU (decEmpty (setSpace b point (.Known d))) + 1)
            (decEmpty (setSpace b point (.Known d))) point d with
        | none =>
          constructor
          · intro b' s h
            simp only [solveRemoveGuess, hrem, hget2, hfill] at h
            exact LoopStep.noConfusion h
          · intro b' h
            simp only [solveRemoveGuess, hrem, hget2, hfill] at h
            exact LoopStep.noConfusion h
        | some out3 =>
          obtain ⟨b3, r3⟩ := out3
          have hm3 := fillSpaceF_master _ _ _ _ _ _ hfill
          cases r3 with
          | error e =>
            constructor
            · intro b' s h
              simp only [solveRemoveGuess, hrem, hget2, hfill] at h
              obtain ⟨rfl, rfl⟩ : b3 = b' ∧ false = s := by
                cases h
                exact ⟨rfl, rfl⟩
              exact ⟨boardLe_trans hle2 (fillMaster_boardLe hm3),
                fun hs => Bool.noConfusion hs⟩
            · intro b' h
              simp only [solveRemoveGuess, hrem, hget2, hfill] at h
              exact LoopStep.noConfusion h
          | ok m =>
            have hle3 : BoardLe b b3 :=
              boardLe_trans hle2 (fillMaster_boardLe hm3)
            have hsl3 : SlackPres b b3 :=
              slackPres_trans hsl2 (fillMaster_slack hm3)
            by_cases hsolved : isSolved b3 = true
            · constructor
              · intro b' s h
                simp only [solveRemoveGuess, hrem, hget2, hfill, hsolved, if_true] at h
                obtain ⟨rfl, rfl⟩ : b3 = b' ∧ true = s := by
                  cases h
                  exact ⟨rfl, rfl⟩
                exact ⟨hle3, fun _ => hsl3⟩
              · intro b' h
                simp only [solveRemoveGuess, hrem, hget2, hfill, hsolved, if_true] at h
                exact LoopStep.noConfusion h
            · cases hnf : narrowFullF (countU b3 + 2) (countU b3 + 1) b3 with
              | none =>
                constructor
                · intro b' s h
                  simp only [solveRemoveGuess, hrem, hget2, hfill, hsolved, if_false, hnf] at h
                  exact LoopStep.noConfusion h
                · intro b' h
                  simp only [solveRemoveGuess, hrem, hget2, hfill, hsolved, if_false, hnf] at h
                  exact LoopStep.noConfusion h
              | some out4 =>
                obtain ⟨b4, r4⟩ := out4
                obtain ⟨hle4, hsl4⟩ := narrowFullF_master _ _ _ _ _ hnf
                cases r4 with
                | error e =>
                  constructor
                  · intro b' s h
                    simp only [solveRemoveGuess, hrem, hget2, hfill, hsolved, if_false, hnf] at h
                    obtain ⟨rfl, rfl⟩ : b4 = b' ∧ false = s := by
                      cases h
                      exact ⟨rfl, rfl⟩
                    exact ⟨boardLe_trans hle3 hle4, fun hs => Bool.noConfusion hs⟩
                  · intro b' h
                    simp only [solveRemoveGuess, hrem, hget2, hfill, hsolved, if_false, hnf] at h
                    exact LoopStep.noConfusion h
                | ok nfb =>
                  have hle4' : BoardLe b b4 := boardLe_trans hle3 hle4
                  have hsl4' : SlackPres b b4 :=
                    slackPres_trans hsl3 (hsl4 nfb rfl)
                  by_cases hsolved4 : isSolved b4 = true
                  · constructor
                    · intro b' s h
                      simp only [solveRemoveGuess, hrem, hget2, hfill, hsolved, if_false, hnf,
                        hsolved4, if_true] at h
                      obtain ⟨rfl, rfl⟩ : b4 = b' ∧ true = s := by
                        cases h
                        exact ⟨rfl, rfl⟩
                      exact ⟨hle4', fun _ => hsl4'⟩
                    · intro b' h
                      simp only [solveRemoveGuess, hrem, hget2, hfill, hsolved, if_false, hnf,
                        hsolved4, if_true] at h
                      exact LoopStep.noConfusion h
                  · constructor
                    · intro b' s h
                      simp only [solveRemoveGuess, hrem, hget2, hfill, hsolved, if_false, hnf,
                        hsolved4] at h
                      exact LoopStep.noConfusion h
                    · intro b' h
                      simp only [solveRemoveGuess, hrem, hget2, hfill, hsolved, if_false, hnf,
                        hsolved4] at h
                      cases h
                      exact ⟨hle4', hsl4'⟩
      · -- the guess was merely deleted from the candidate list
        subst hres
        subst hnv
        have hcu : countU (setSpace b point (.Unknown (swapRemove l i))) = countU b := by
          have := countU_setSpace (b := b) (p := point) (.Unknown (swapRemove l i)) h1 h2
          rw [hsv] at this
          simpa [SudokuValue.isKnown] using this
        have htc : totalCand (setSpace b point (.Unknown (swapRemove l i))) + l.length =
            totalCand b + (swapRemove l i).length := by
          have := totalCand_setSpace (b := b) (p := point) (.Unknown (swapRemove l i)) h1 h2
          rw [hsv] at this
          simpa [cellCand] using this
        constructor
        · intro b' s h
          simp only [solveRemoveGuess, hrem] at h
          exact LoopStep.noConfusion h
        · intro b' h
          simp only [solveRemoveGuess, hrem] at h
          cases h
          refine ⟨⟨by omega, by omega, shape_setSpace b point _,
            fun hc => candInv_setSpace hc (candCell_remove hrem (candInv_getSpace hc point))⟩, ?_⟩
          intro k hk
          rw [hcu]
          exact hk

theorem solveLoopG_master (recur : SudokuBoard → Option (SudokuBoard × Bool))
    (hrec : ∀ b b' s, recur b = some (b', s) → BoardLe b b' ∧ (s = true → SlackPres b b')) :
    ∀ (lf : Nat) (b b' : SudokuBoard) (s : Bool),
      solveLoopG recur lf b = some (b', s) → BoardLe b b' ∧ (s = true → SlackPres b b')
  | 0, b, b', s, h => by
    simp only [solveLoopG] at h
    exact Option.noConfusion h
  | lf + 1, b, b', s, h => by
    cases hfill : fillSpaceF (countU b + 1) b (mostImpactfulGuess b).1 (mostImpactfulGuess b).2 with
    | none =>
      simp only [solveLoopG, hfill] at h
      exact Option.noConfusion h
    | some outg =>
      obtain ⟨gb, rg⟩ := outg
      have hmg := fillSpaceF_master _ _ _ _ _ _ hfill
      have hafter : ∀ hstep : LoopStep,
          (∀ b2 s2, hstep = .done b2 s2 → BoardLe b b2 ∧ (s2 = true → SlackPres b b2)) →
          (∀ b2, hstep = .again b2 → BoardLe b b2 ∧ SlackPres b b2) →
          (match hstep with
            | .done b2 s2 => some (b2, s2)
            | .again b2 => solveLoopG recur lf b2
            | .fuelOut => none) = some (b', s) →
          BoardLe b b' ∧ (s = true → SlackPres b b') := by
        intro hstep hdone hagain hh
        cases hstep with
        | done b2 s2 =>
          obtain ⟨rfl, rfl⟩ : b2 = b' ∧ s2 = s := by
            cases hh
            exact ⟨rfl, rfl⟩
          exact hdone _ _ rfl
        | again b2 =>
          obtain ⟨hle2, hsl2⟩ := hagain b2 rfl
          obtain ⟨ihle, ihsl⟩ := solveLoopG_master recur hrec lf b2 b' s hh
          exact ⟨boardLe_trans hle2 ihle, fun hs => slackPres_trans hsl2 (ihsl hs)⟩
        | fuelOut => exact Option.noConfusion hh
      cases rg with
      | error e =>
        simp only [solveLoopG, hfill] at h
        exact hafter (solveRemoveGuess b (mostImpactfulGuess b).1 (mostImpactfulGuess b).2)
          (solveRemoveGuess_master b (mostImpactfulGuess b).1 (mostImpactfulGuess b).2).1
          (solveRemoveGuess_master b (mostImpactfulGuess b).1 (mostImpactfulGuess b).2).2 h
      | ok m =>
        cases hsolve : recur gb with
        | none =>
          simp only [solveLoopG, hfill, hsolve] at h
          exact Option.noConfusion h
        | some outs =>
          obtain ⟨sb, ss⟩ := outs
          obtain ⟨hrle, hrsl⟩ := hrec gb sb ss hsolve
          cases ss with
          | true =>
            simp only [solveLoopG, hfill, hsolve] at h
            obtain ⟨rfl, rfl⟩ : sb = b' ∧ true = s := by
              cases h
              exact ⟨rfl, rfl⟩
            refine ⟨boardLe_trans (fillMaster_boardLe hmg) hrle, fun _ => ?_⟩
            exact slackPres_trans (fillMaster_slack hmg) (hrsl rfl)
          | false =>
            simp only [solveLoopG, hfill, hsolve] at h
            exact hafter (solveRemoveGuess b (mostImpactfulGuess b).1 (mostImpactfulGuess b).2)
              (solveRemoveGuess_master b (mostImpactfulGuess b).1 (mostImpactfulGuess b).2).1
              (solveRemoveGuess_master b (mostImpactfulGuess b).1 (mostImpactfulGuess b).2).2 h

theorem solveF_master : ∀ (fuel : Nat) (b b' : SudokuBoard) (s : Bool),
    solveF fuel b = some (b', s) → BoardLe b b' ∧ (s = true → SlackPres b b')
  | 0, b, b', s, h => by
    simp only [solveF] at h
    exact Option.noConfusion h
  | fuel + 1, b, b', s, h => by
    cases hic : (if !b.initalised then initalCheckF (countK b + countU b + 1) b
        else some (b, .ok ())) with
    | none =>
      simp only [solveF, hic] at h
      exact Option.noConfusion h
    | some out1 =>
      obtain ⟨b1, r1⟩ := out1
      have hlesl : BoardLe b b1 ∧ SlackPres b b1 := by
        by_cases hinit : (!b.initalised) = true
        · rw [if_pos hinit] at hic
          exact initalCheckF_master hic
        · rw [if_neg hinit] at hic
          obtain ⟨rfl, _⟩ : b = b1 ∧ Except.ok () = r1 := by
            cases hic
            exact ⟨rfl, rfl⟩
          exact ⟨boardLe_refl b, slackPres_refl b⟩
      obtain ⟨hle1, hsl1⟩ := hlesl
      cases r1 with
      | error e =>
        simp only [solveF, hic] at h
        obtain ⟨rfl, rfl⟩ : b1 = b' ∧ false = s := by
          cases h
          exact ⟨rfl, rfl⟩
        exact ⟨hle1, fun hs => Bool.noConfusion hs⟩
      | ok u =>
        by_cases hsolved : isSolved b1 = true
        · simp only [solveF, hic, hsolved, if_true] at h
          obtain ⟨rfl, rfl⟩ : b1 = b' ∧ true = s := by
            cases h
            exact ⟨rfl, rfl⟩
          exact ⟨hle1, fun _ => hsl1⟩
        · cases hnf : narrowFullF (countU b1 + 2) (countU b1 + 1) b1 with
          | none =>
            simp only [solveF, hic, hsolved, if_false, hnf] at h
            simp at h
          | some out2 =>
            obtain ⟨b2, r2⟩ := out2
            obtain ⟨hle2, hsl2⟩ := narrowFullF_master _ _ _ _ _ hnf
            cases r2 with
            | error e =>
              simp only [solveF, hic, hsolved, if_false, hnf] at h
              obtain ⟨rfl, rfl⟩ : b2 = b' ∧ false = s := by
                cases h
                exact ⟨rfl, rfl⟩
              exact ⟨boardLe_trans hle1 hle2, fun hs => Bool.noConfusion hs⟩
            | ok nfb =>
              by_cases hsolved2 : isSolved b2 = true
              · simp only [solveF, hic, hsolved, if_false, hnf, hsolved2, if_true] at h
                obtain ⟨rfl, rfl⟩ : b2 = b' ∧ true = s := by
                  cases h
                  exact ⟨rfl, rfl⟩
                exact ⟨boardLe_trans hle1 hle2,
                  fun _ => slackPres_trans hsl1 (hsl2 nfb rfl)⟩
              · simp only [solveF, hic, hsolved, if_false, hnf, hsolved2] at h
                obtain ⟨ihle, ihsl⟩ := solveLoopG_master (solveF fuel)
                  (fun bb bb' ss hhh => solveF_master fuel bb bb' ss hhh)
                  (fuel + 1) b2 b' s h
                refine ⟨boardLe_trans hle1 (boardLe_trans hle2 ihle), fun hs => ?_⟩
                exact slackPres_trans hsl1
                  (slackPres_trans (hsl2 nfb rfl) (ihsl hs))


/-! ## Construction establishes the invariants (base facts for C9, C2, C3) -/

theorem placeValue_cnt (st : ParseState) (v : SudokuValue) :
    (placeValue st v).empty_spaces = st.empty_spaces + (if v.isKnown then 0 else 1) ∧
    (placeValue st v).known_spaces = st.known_spaces + (if v.isKnown then 1 else 0) := by
  by_cases hk : v.isKnown <;> simp [placeValue, hk]

/-- The running counts match the cells placed so far. -/
def CntInv (st : ParseState) : Prop :=
  st.empty_spaces = st.spaces.flatten.countP (fun c => !c.isKnown) ∧
  st.known_spaces = st.spaces.flatten.countP (fun c => c.isKnown)

theorem buildSpaces_cnt : ∀ (cs : List Char) (st : ParseState)
    (full : List (List SudokuValue)) (part : List SudokuValue),
    StInv st full part → st.row_index < 9 → CntInv st → CntInv (buildSpaces cs st)
  | [], st, full, part, _, _, hcnt => by
    simpa only [buildSpaces] using hcnt
  | c :: cs, st, full, part, hinv, hlt, hcnt => by
    cases hfc : SudokuValue.fromChar c with
    | none =>
      have hbs : buildSpaces (c :: cs) st = buildSpaces cs st := by
        simp [buildSpaces, hfc]
      rw [hbs]
      exact buildSpaces_cnt cs st full part hinv hlt hcnt
    | some v =>
      obtain ⟨full1, part1, hinv1, hfl1, _, hle1, _⟩ := placeValue_spec st v full part hinv hlt
      obtain ⟨hce, hck⟩ := placeValue_cnt st v
      have hcnt1 : CntInv (placeValue st v) := by
        obtain ⟨he, hk⟩ := hcnt
        constructor
        · rw [hce, hfl1, List.countP_append, he]
          cases hkv : v.isKnown <;> simp [List.countP_cons, hkv]
        · rw [hck, hfl1, List.countP_append, hk]
          cases hkv : v.isKnown <;> simp [List.countP_cons, hkv]
      by_cases h9 : (placeValue st v).row_index = 9
      · have hbs : buildSpaces (c :: cs) st = placeValue st v := by
          simp [buildSpaces, hfc, h9]
        rw [hbs]
        exact hcnt1
      · have hbs : buildSpaces (c :: cs) st = buildSpaces cs (placeValue st v) := by
          simp [buildSpaces, hfc, h9]
        rw [hbs]
        exact buildSpaces_cnt cs (placeValue st v) full1 part1 hinv1 (by omega) hcnt1

theorem countU_eq_flatten (b : SudokuBoard) :
    countU b = b.spaces.flatten.countP (fun c => !c.isKnown) := by
  rw [countU, List.countP_flatten]

theorem fromChar_candCell {c : Char} {v : SudokuValue}
    (h : SudokuValue.fromChar c = some v) : CandCell v := by
  unfold SudokuValue.fromChar at h
  by_cases h1 : '1' ≤ c ∧ c ≤ '9'
  · rw [if_pos h1] at h
    cases h
    trivial
  · rw [if_neg h1] at h
    by_cases h2 : ('a' ≤ c ∧ c ≤ 'z') ∨ ('A' ≤ c ∧ c ≤ 'Z') ∨ c = '0'
    · rw [if_pos h2] at h
      cases h
      exact ⟨by decide, by decide, by decide⟩
    · rw [if_neg h2] at h
      exact Option.noConfusion h

/-- Every field fact a freshly constructed board satisfies. -/
theorem newBoard_props {s : List Char} {b : SudokuBoard} (h : newBoard s = .ok b) :
    b.spaces.length = 9 ∧ (∀ row ∈ b.spaces, row.length = 9) ∧
    b.empty_spaces = countU b ∧ b.initalised = false ∧ CandInv b := by
  have hbase : StInv ⟨[], 0, 0, 0⟩ [] [] :=
    ⟨by simp, by simp, rfl, Or.inl ⟨rfl, rfl⟩, by simp⟩
  obtain ⟨full', part', hinv', h9', hfl', hcnt'⟩ :=
    buildSpaces_spec s ⟨[], 0, 0, 0⟩ [] [] hbase (by norm_num)
  have hcnti : CntInv (buildSpaces s ⟨[], 0, 0, 0⟩) :=
    buildSpaces_cnt s ⟨[], 0, 0, 0⟩ [] [] hbase (by norm_num) ⟨rfl, rfl⟩
  unfold newBoard at h
  by_cases hcase : (buildSpaces s ⟨[], 0, 0, 0⟩).known_spaces +
      (buildSpaces s ⟨[], 0, 0, 0⟩).empty_spaces = 81
  · rw [if_neg (by omega)] at h
    have hbeq : b = ⟨(buildSpaces s ⟨[], 0, 0, 0⟩).spaces,
        (buildSpaces s ⟨[], 0, 0, 0⟩).empty_spaces, false⟩ := by
      cases h
      rfl
    subst hbeq
    obtain ⟨hfull, hpart, hrow, hsp, hcnt⟩ := hinv'
    rw [hcase] at hcnt
    have hpl : part'.length = 0 := by omega
    have hpe : part' = [] := List.length_eq_zero.1 hpl
    have hfl9 : full'.length = 9 := by omega
    rcases hsp with ⟨_, hsp⟩ | ⟨hne, _⟩
    · refine ⟨by rw [hsp, hfl9], ?_, ?_, rfl, ?_⟩
      · intro row hr
        rw [hsp] at hr
        exact hfull row hr
      · show (buildSpaces s ⟨[], 0, 0, 0⟩).empty_spaces = _
        rw [hcnti.1, countU_eq_flatten]
      · intro row hrow c hc
        have hcf : c ∈ (buildSpaces s ⟨[], 0, 0, 0⟩).spaces.flatten :=
          List.mem_flatten.2 ⟨row, hrow, hc⟩
        rw [hfl'] at hcf
        simp only [List.nil_append] at hcf
        have hcf2 : c ∈ List.filterMap SudokuValue.fromChar s :=
          List.mem_of_mem_take hcf
        obtain ⟨ch, _, hch⟩ := List.mem_filterMap.1 hcf2
        exact fromChar_candCell hch
    · exact absurd hpe hne
  · rw [if_pos (by omega)] at h
    exact Except.noConfusion h

/-! ## The operation-step relation, C2 and C9 -/

/-- One engine operation applied to a board: the `Bool` records whether the
operation returned successfully (`Ok`, or `true` for `solve`; the `s` of a
`removeGuessDone` step is `solve`'s return value at that exit). -/
inductive Step : SudokuBoard → SudokuBoard → Bool → Prop
  | initalCheck (fuel : Nat) (b b' : SudokuBoard) :
      initalCheckF fuel b = some (b', .ok ()) → Step b b' true
  | initalCheckErr (fuel : Nat) (b b' : SudokuBoard) :
      initalCheckF fuel b = some (b', .error ()) → Step b b' false
  | fillSpace (fuel : Nat) (b : SudokuBoard) (p : Nat × Nat) (v : Nat)
      (b' : SudokuBoard) (n : Nat) :
      fillSpaceF fuel b p v = some (b', .ok n) → Step b b' true
  | fillSpaceErr (fuel : Nat) (b : SudokuBoard) (p : Nat × Nat) (v : Nat)
      (b' : SudokuBoard) (e : FillError) :
      fillSpaceF fuel b p v = some (b', .error e) → Step b b' false
  | narrow (fuel : Nat) (b b' : SudokuBoard) (n : Nat) :
      narrowF fuel b = some (b', .ok n) → Step b b' true
  | narrowErr (fuel : Nat) (b b' : SudokuBoard) (e : FillError) :
      narrowF fuel b = some (b', .error e) → Step b b' false
  | narrowFull (lf fuel : Nat) (b b' : SudokuBoard) (sv : Bool) :
      narrowFullF lf fuel b = some (b', .ok sv) → Step b b' true
  | narrowFullErr (lf fuel : Nat) (b b' : SudokuBoard) (e : FillError) :
      narrowFullF lf fuel b = some (b', .error e) → Step b b' false
  | solve (fuel : Nat) (b b' : SudokuBoard) (s : Bool) :
      solveF fuel b = some (b', s) → Step b b' s
  | removeGuessAgain (b : SudokuBoard) (p : Nat × Nat) (gv : Nat) (b' : SudokuBoard) :
      solveRemoveGuess b p gv = .again b' → Step b b' true
  | removeGuessDone (b : SudokuBoard) (p : Nat × Nat) (gv : Nat) (b' : SudokuBoard) (s : Bool) :
      solveRemoveGuess b p gv = .done b' s → Step b b' s

theorem step_boardLe {b b' : SudokuBoard} {s : Bool} (h : Step b b' s) : BoardLe b b' :=
  match h with
  | .initalCheck _ _ _ hh => (initalCheckF_master hh).1
  | .initalCheckErr _ _ _ hh => (initalCheckF_master hh).1
  | .fillSpace _ _ _ _ _ _ hh => fillMaster_boardLe (fillSpaceF_master _ _ _ _ _ _ hh)
  | .fillSpaceErr _ _ _ _ _ _ hh => fillMaster_boardLe (fillSpaceF_master _ _ _ _ _ _ hh)
  | .narrow _ _ _ _ hh => fillMaster_boardLe (narrowF_master hh)
  | .narrowErr _ _ _ _ hh => fillMaster_boardLe (narrowF_master hh)
  | .narrowFull _ _ _ _ _ hh => (narrowFullF_master _ _ _ _ _ hh).1
  | .narrowFullErr _ _ _ _ _ hh => (narrowFullF_master _ _ _ _ _ hh).1
  | .solve _ _ _ _ hh => (solveF_master _ _ _ _ hh).1
  | .removeGuessAgain _ p gv _ hh => ((solveRemoveGuess_master _ p gv).2 _ hh).1
  | .removeGuessDone _ p gv _ _ hh => ((solveRemoveGuess_master _ p gv).1 _ _ hh).1

theorem step_slack {b b' : SudokuBoard} (h : Step b b' true) : SlackPres b b' :=
  match h with
  | .initalCheck _ _ _ hh => (initalCheckF_master hh).2
  | .fillSpace _ _ _ _ _ _ hh => fillMaster_slack (fillSpaceF_master _ _ _ _ _ _ hh)
  | .narrow _ _ _ _ hh => fillMaster_slack (narrowF_master hh)
  | .narrowFull _ _ _ _ sv hh => (narrowFullF_master _ _ _ _ _ hh).2 sv rfl
  | .solve _ _ _ _ hh => (solveF_master _ _ _ _ hh).2 rfl
  | .removeGuessAgain _ p gv _ hh => ((solveRemoveGuess_master _ p gv).2 _ hh).2
  | .removeGuessDone _ p gv _ _ hh => ((solveRemoveGuess_master _ p gv).1 _ _ hh).2 rfl

/-- C2 (amended): every engine operation that returns successfully carries
the invariant `empty_spaces = countU` from its entry to its return (the
claim fails for error returns of `fill_space`, see the counterexample). -/
theorem empty_spaces_invariant_C2 (b b' : SudokuBoard) (s : Bool)
    (hstep : Step b b' s) (hs : s = true)
    (hinv : b.empty_spaces = countU b) : b'.empty_spaces = countU b' := by
  subst hs
  have := step_slack hstep 0 (by omega)
  omega

/-- A solved board with every space known, used to witness C2 and C3. -/
def solvedBoard : SudokuBoard :=
  ⟨List.replicate 9 ((List.range 9).map fun j => SudokuValue.Known (j + 1)), 0, true⟩

/-- Witness for C2: the `solve` step on the solved board. -/
theorem empty_spaces_invariant_C2_witness :
    Step solvedBoard solvedBoard true ∧ (true = true) ∧
    solvedBoard.empty_spaces = countU solvedBoard ∧
    solvedBoard.empty_spaces = countU solvedBoard :=
  ⟨Step.solve 1 solvedBoard solvedBoard true rfl, rfl, by decide,
    empty_spaces_invariant_C2 solvedBoard solvedBoard true
      (Step.solve 1 solvedBoard solvedBoard true rfl) rfl (by decide)⟩

/-- The boards reachable from construction through the engine operations. -/
inductive Reachable : SudokuBoard → Prop
  | base (s : List Char) (b : SudokuBoard) : newBoard s = .ok b → Reachable b
  | step (b b' : SudokuBoard) (s : Bool) : Reachable b → Step b b' s → Reachable b'

/-- C9: on every board reachable from construction via the operations,
every unknown cell's candidate list has at least 2 distinct digits, each
between 1 and 9. -/
theorem candidate_invariant_C9 (b : SudokuBoard) (h : Reachable b) : CandInv b := by
  induction h with
  | base s b hb => exact (newBoard_props hb).2.2.2.2
  | step b b' s hr hstep ih => exact (step_boardLe hstep).2.2.2 ih

/-- Witness for C9: the freshly constructed all-placeholder board. -/
theorem candidate_invariant_C9_witness :
    Reachable baseBoard ∧ CandInv baseBoard :=
  ⟨Reachable.base (List.replicate 81 '0') baseBoard (by rfl),
    candidate_invariant_C9 baseBoard
      (Reachable.base (List.replicate 81 '0') baseBoard (by rfl))⟩


/-! ## C8: `narrow` at a fixed point -/

/-- Number of unknown cells of a unit listing `value`. -/
def listersCount (b : SudokuBoard) (value : Nat) (unit : List (Nat × Nat)) : Nat :=
  unit.countP fun q =>
    match getSpace b q with
    | .Unknown l => decide (value ∈ l)
    | .Known _ => false

theorem scanUnit_skip_of {b : SudokuBoard} {value : Nat} : ∀ (pts : List (Nat × Nat))
    (found : Option (Nat × Nat)),
    ((∃ q ∈ pts, getSpace b q = .Known value) ∨
      2 ≤ listersCount b value pts + (if found.isSome then 1 else 0)) →
    scanUnit b value pts found = .skipValue
  | [], found, h => by
    rcases h with ⟨q, hq, _⟩ | h2
    · simp at hq
    · simp only [listersCount, List.countP_nil] at h2
      rcases found with _ | f <;> simp at h2
  | q :: rest, found, h => by
    cases hg : getSpace b q with
    | Known kv =>
      by_cases hkv : kv = value
      · simp [scanUnit, hg, hkv]
      · have hrec : scanUnit b value rest found = .skipValue := by
          apply scanUnit_skip_of rest found
          rcases h with ⟨p, hp, hpk⟩ | h2
          · rcases List.mem_cons.1 hp with rfl | hp2
            · rw [hg] at hpk
              cases hpk
              exact absurd rfl hkv
            · exact Or.inl ⟨p, hp2, hpk⟩
          · right
            simp only [listersCount, List.countP_cons, hg] at h2 ⊢
            simpa using h2
        simp [scanUnit, hg, hkv, hrec]
    | Unknown l =>
      by_cases hvl : value ∈ l
      · cases found with
        | some f => simp [scanUnit, hg, hvl]
        | none =>
          have hrec : scanUnit b value rest (some q) = .skipValue := by
            apply scanUnit_skip_of rest (some q)
            rcases h with ⟨p, hp, hpk⟩ | h2
            · rcases List.mem_cons.1 hp with rfl | hp2
              · rw [hg] at hpk
                exact SudokuValue.noConfusion hpk
              · exact Or.inl ⟨p, hp2, hpk⟩
            · right
              have h2' : 2 ≤ listersCount b value rest + 1 := by
                simpa [listersCount, List.countP_cons, hg, hvl] using h2
              simpa [listersCount] using h2'
          simp [scanUnit, hg, hvl, hrec]
      · have hrec : scanUnit b value rest found = .skipValue := by
          apply scanUnit_skip_of rest found
          rcases h with ⟨p, hp, hpk⟩ | h2
          · rcases List.mem_cons.1 hp with rfl | hp2
            · rw [hg] at hpk
              exact SudokuValue.noConfusion hpk
            · exact Or.inl ⟨p, hp2, hpk⟩
          · right
            simp only [listersCount, List.countP_cons, hg] at h2 ⊢
            simpa [hvl] using h2
        simp [scanUnit, hg, hvl, hrec]

/-- The (strengthened) fixed-point condition: every unit already contains
the digit, or at least two unknown cells still list it. -/
def NarrowFixpoint (b : SudokuBoard) : Prop :=
  ∀ unit ∈ getAllFullCoordinates, ∀ value ∈ (List.range 9).map (· + 1),
    (∃ q ∈ unit, getSpace b q = .Known value) ∨ 2 ≤ listersCount b value unit

theorem narrowValues_fixpoint {b : SudokuBoard} {unit : List (Nat × Nat)}
    (hskip : ∀ value ∈ (List.range 9).map (· + 1),
      (∃ q ∈ unit, getSpace b q = .Known value) ∨ 2 ≤ listersCount b value unit) :
    ∀ (values : List Nat), values ⊆ (List.range 9).map (· + 1) →
    ∀ (fuel acc : Nat), narrowValues fuel b unit values acc = some (b, .ok acc)
  | [], _, fuel, acc => by simp [narrowValues]
  | value :: vrest, hsub, fuel, acc => by
    have hv : value ∈ (List.range 9).map (· + 1) := hsub (List.mem_cons_self _ _)
    have hscan : scanUnit b value unit none = .skipValue := by
      apply scanUnit_skip_of unit none
      rcases hskip value hv with h | h
      · exact Or.inl h
      · right
        simpa using h
    have hrest := narrowValues_fixpoint hskip vrest
      (fun x hx => hsub (List.mem_cons_of_mem _ hx)) fuel acc
    simp [narrowValues, hscan, hrest]

theorem narrowUnits_fixpoint {b : SudokuBoard} (hfix : NarrowFixpoint b) :
    ∀ (units : List (List (Nat × Nat))), units ⊆ getAllFullCoordinates →
    ∀ (fuel acc : Nat), narrowUnits fuel b units acc = some (b, .ok acc)
  | [], _, fuel, acc => by simp [narrowUnits]
  | unit :: urest, hsub, fuel, acc => by
    have hu : unit ∈ getAllFullCoordinates := hsub (List.mem_cons_self _ _)
    have hnv := narrowValues_fixpoint (hfix unit hu) ((List.range 9).map (· + 1))
      (fun x hx => hx) fuel acc
    have hrest := narrowUnits_fixpoint hfix urest
      (fun x hx => hsub (List.mem_cons_of_mem _ hx)) fuel acc
    simp [narrowUnits, hnv, hrest]

/-- C8 (amended): on a board where every (unit, digit) pair either already
has the digit placed or has at least two unknown cells listing it,
`narrow()` returns `Ok 0` and performs no mutation at all. -/
theorem narrow_fixpoint_C8 (fuel : Nat) (b : SudokuBoard) (hfix : NarrowFixpoint b) :
    narrowF fuel b = some (b, .ok 0) :=
  narrowUnits_fixpoint hfix getAllFullCoordinates (fun _ hx => hx) fuel 0
/-- An all-Known board whose first row duplicates 2 and omits 1: the (row 0,
digit 1) pair has no Known 1 and zero candidate cells listing 1. -/
def c8Board : SudokuBoard :=
  ⟨([2, 2, 3, 4, 5, 6, 7, 8, 9].map SudokuValue.Known) ::
    List.replicate 8 (((List.range 9).map (· + 1)).map SudokuValue.Known), 0, true⟩

/-- A fresh all-candidates board: every unit has nine cells listing every digit. -/
def c8WBoard : SudokuBoard :=
  ⟨List.replicate 9 (List.replicate 9 (SudokuValue.Unknown ((List.range 9).map (· + 1)))),
    81, true⟩

/-- Counterexample to C8 as stated: `c8Board` has no (unit, digit) pair with
exactly one candidate cell listing an unplaced digit (there are no candidate
cells at all), yet `narrow` returns an error rather than `Ok 0`. -/
theorem narrow_fixpoint_C8_cex :
    (∀ unit ∈ getAllFullCoordinates, ∀ value ∈ (List.range 9).map (· + 1),
      ¬((∀ q ∈ unit, getSpace c8Board q ≠ .Known value) ∧
        listersCount c8Board value unit = 1)) ∧
    narrowF 1 c8Board = some (c8Board, .error .unsolvable) := by
  constructor
  · decide
  · rfl

theorem narrow_fixpoint_C8_witness :
    NarrowFixpoint c8WBoard ∧ narrowF 1 c8WBoard = some (c8WBoard, .ok 0) :=
  ⟨by unfold NarrowFixpoint; decide,
    narrow_fixpoint_C8 1 c8WBoard (by unfold NarrowFixpoint; decide)⟩


/-! ## C6: most_impactful_guess as a lexicographic maximum -/

/-- Spec-side: the candidate-set size at a cell (0 for a known cell). -/
def cellLen (b : SudokuBoard) (p : Nat × Nat) : Nat :=
  match getSpace b p with
  | .Unknown l => l.length
  | .Known _ => 0

/-- Spec-side: number of spaces adjacent to `p` that are unknown with
exactly two candidates and list `d` (the `spaces_solved` key). -/
def specSolved (b : SudokuBoard) (p : Nat × Nat) (d : Nat) : Nat :=
  (adjacentSpaces p).countP fun q =>
    match getSpace b q with
    | .Unknown l => decide (d ∈ l) && decide (l.length = 2)
    | .Known _ => false

/-- Spec-side: number of spaces adjacent to `p` that are unknown and list
`d` (the `possible_values_removed` key). -/
def specRemoved (b : SudokuBoard) (p : Nat × Nat) (d : Nat) : Nat :=
  (adjacentSpaces p).countP fun q =>
    match getSpace b q with
    | .Unknown l => decide (d ∈ l)
    | .Known _ => false

/-- Spec-side: the full impact record of one (cell, digit) pair. -/
def specImpact (b : SudokuBoard) (pd : (Nat × Nat) × Nat) : Impact :=
  ⟨pd.1, pd.2, cellLen b pd.1, specSolved b pd.1 pd.2, specRemoved b pd.1 pd.2⟩

/-- Spec-side: strict lexicographic improvement over the current best:
fewer candidates first, then more adjacent solved, then more removed. -/
def specBetter (new best : Impact) : Bool :=
  decide (new.number_of_possible_values < best.number_of_possible_values) ||
  (decide (new.number_of_possible_values = best.number_of_possible_values) &&
    (decide (best.spaces_solved < new.spaces_solved) ||
     (decide (new.spaces_solved = best.spaces_solved) &&
      decide (best.possible_values_removed < new.possible_values_removed))))

/-- Spec-side: fold step keeping the earliest pair on ties (only a strict
improvement replaces the best so far). -/
def specStep (b : SudokuBoard) (best : Impact) (pd : (Nat × Nat) × Nat) : Impact :=
  if specBetter (specImpact b pd) best then specImpact b pd else best

/-- Spec-side: all (unknown cell, candidate digit) pairs in row-major scan
order, each cell's digits in stored order. -/
def guessPairs (b : SudokuBoard) : List ((Nat × Nat) × Nat) :=
  (allPoints.map fun p =>
    match getSpace b p with
    | .Unknown l => l.map fun d => (p, d)
    | .Known _ => ([] : List ((Nat × Nat) × Nat))).flatten

/-- Spec-side restatement of `most_impactful_guess`: the lexicographically
maximal pair, earliest in scan order on ties. -/
def specGuess (b : SudokuBoard) : (Nat × Nat) × Nat :=
  let best := (guessPairs b).foldl (specStep b) ⟨(0, 0), 0, usizeMax, 0, 0⟩
  (best.point, best.guess)

/-- Every candidate list on the board is shorter than `usize::MAX`
(trivially true of any board a 64-bit Rust process can hold). -/
def lenOK (b : SudokuBoard) : Bool :=
  allPoints.all fun p =>
    match getSpace b p with
    | .Unknown l => decide (l.length < usizeMax)
    | .Known _ => true

theorem guessCounts_eq (b : SudokuBoard) (p : Nat × Nat) (d : Nat) :
    guessCounts b p d = (specSolved b p d, specRemoved b p d) := by
  unfold guessCounts specSolved specRemoved
  generalize adjacentSpaces p = l
  suffices h : ∀ (l : List (Nat × Nat)) (a c : Nat),
      l.foldl
        (fun counts q =>
          match getSpace b q with
          | .Unknown adject_possible_values =>
            if d ∈ adject_possible_values then
              (if adject_possible_values.length = 2 then counts.1 + 1 else counts.1,
                counts.2 + 1)
            else counts
          | .Known _ => counts)
        (a, c) =
      (a + l.countP (fun q =>
          match getSpace b q with
          | .Unknown l => decide (d ∈ l) && decide (l.length = 2)
          | .Known _ => false),
       c + l.countP (fun q =>
          match getSpace b q with
          | .Unknown l => decide (d ∈ l)
          | .Known _ => false)) by
    simpa using h l 0 0
  intro l
  induction l with
  | nil => intro a c; simp
  | cons q rest ih =>
    intro a c
    simp only [List.foldl_cons, List.countP_cons]
    cases hg : getSpace b q with
    | Known kv =>
      simp only [hg]
      rw [ih a c]
      simp
    | Unknown apv =>
      simp only [hg]
      by_cases hd : d ∈ apv
      · by_cases h2 : apv.length = 2
        · simp only [hd, if_true, h2]
          rw [ih (a + 1) (c + 1)]
          simp [hd, h2]
          constructor <;> omega
        · simp only [hd, if_true, h2, if_false]
          rw [ih a (c + 1)]
          simp [hd, h2]
          omega
      · simp only [hd, if_false]
        rw [ih a c]
        simp [hd]

theorem guessStep_eq_specStep (b : SudokuBoard) {p : Nat × Nat} {l : List Nat}
    (hg : getSpace b p = .Unknown l) (best : Impact) (d : Nat)
    (hle : l.length ≤ best.number_of_possible_values) :
    guessStep b p l.length best d = specStep b best (p, d) := by
  have hcl : cellLen b p = l.length := by unfold cellLen; rw [hg]
  have himp : specImpact b (p, d) = ⟨p, d, l.length, specSolved b p d, specRemoved b p d⟩ := by
    unfold specImpact
    rw [hcl]
  unfold guessStep specStep
  rw [guessCounts_eq, himp, specBetter]
  by_cases hlt : l.length < best.number_of_possible_values
  · simp [hlt]
  · have heq : l.length = best.number_of_possible_values := le_antisymm hle (not_lt.1 hlt)
    by_cases hs1 : best.spaces_solved < specSolved b p d
    · simp [hlt, heq, hs1]
    · by_cases hs2 : specSolved b p d < best.spaces_solved
      · have hne : ¬ specSolved b p d = best.spaces_solved := by omega
        simp [hlt, heq, hs1, hs2, hne]
      · have hseq : specSolved b p d = best.spaces_solved := by omega
        by_cases hr : best.possible_values_removed < specRemoved b p d
        · simp [hlt, heq, hs1, hs2, hseq, hr]
        · simp [hlt, heq, hs1, hs2, hseq, hr]

theorem innerFold_eq (b : SudokuBoard) {p : Nat × Nat} {l : List Nat}
    (hg : getSpace b p = .Unknown l) :
    ∀ (ds : List Nat) (best : Impact), l.length ≤ best.number_of_possible_values →
    ds.foldl (guessStep b p l.length) best =
      ds.foldl (fun best d => specStep b best (p, d)) best
  | [], best, _ => rfl
  | d :: ds, best, hle => by
    simp only [List.foldl_cons]
    rw [guessStep_eq_specStep b hg best d hle]
    apply innerFold_eq b hg ds
    unfold specStep
    by_cases hb : specBetter (specImpact b (p, d)) best = true
    · have hcl : (specImpact b (p, d)).number_of_possible_values = l.length := by
        unfold specImpact cellLen
        rw [hg]
      simp only [hb, if_true]
      omega
    · simp only [hb, if_false]
      exact hle

theorem innerFold_skip (b : SudokuBoard) {p : Nat × Nat} {l : List Nat}
    (hg : getSpace b p = .Unknown l) :
    ∀ (ds : List Nat) (best : Impact), best.number_of_possible_values < l.length →
    ds.foldl (fun best d => specStep b best (p, d)) best = best
  | [], _, _ => rfl
  | d :: ds, best, hlt => by
    have hcl : (specImpact b (p, d)).number_of_possible_values = l.length := by
      unfold specImpact cellLen
      rw [hg]
    have hb : specBetter (specImpact b (p, d)) best = false := by
      unfold specBetter
      rw [hcl]
      have h1 : ¬ l.length < best.number_of_possible_values := by omega
      have h2 : ¬ l.length = best.number_of_possible_values := by omega
      simp [h1, h2]
    simp only [List.foldl_cons, specStep, hb, Bool.false_eq_true, if_false]
    exact innerFold_skip b hg ds best hlt

theorem migFold_eq (b : SudokuBoard) :
    ∀ (ps : List (Nat × Nat)) (best : Impact),
    ps.foldl
      (fun (best : Impact) p =>
        match getSpace b p with
        | .Unknown possible_values =>
          if best.number_of_possible_values < possible_values.length then best
          else possible_values.foldl (guessStep b p possible_values.length) best
        | .Known _ => best)
      best =
    ((ps.map fun p =>
        match getSpace b p with
        | .Unknown l => l.map fun d => (p, d)
        | .Known _ => ([] : List ((Nat × Nat) × Nat))).flatten).foldl (specStep b) best
  | [], best => rfl
  | p :: ps, best => by
    simp only [List.foldl_cons, List.map_cons, List.flatten_cons, List.foldl_append]
    cases hg : getSpace b p with
    | Known kv =>
      simp only [hg]
      exact migFold_eq b ps best
    | Unknown l =>
      simp only [hg]
      rw [List.foldl_map]
      by_cases hlt : best.number_of_possible_values < l.length
      · rw [innerFold_skip b hg l best hlt]
        simp only [hlt, if_true]
        exact migFold_eq b ps best
      · simp only [hlt, if_false]
        rw [innerFold_eq b hg l best (not_lt.1 hlt)]
        exact migFold_eq b ps _

theorem mig_eq_specGuess (b : SudokuBoard) : mostImpactfulGuess b = specGuess b := by
  unfold mostImpactfulGuess specGuess guessPairs
  rw [migFold_eq b allPoints]
theorem mem_guessPairs {b : SudokuBoard} {pd : (Nat × Nat) × Nat}
    (h : pd ∈ guessPairs b) :
    pd.1 ∈ allPoints ∧ ∃ l, getSpace b pd.1 = .Unknown l ∧ pd.2 ∈ l := by
  unfold guessPairs at h
  rw [List.mem_flatten] at h
  obtain ⟨inner, hinner, hpd⟩ := h
  rw [List.mem_map] at hinner
  obtain ⟨p, hp, rfl⟩ := hinner
  cases hg : getSpace b p with
  | Known kv =>
    rw [hg] at hpd
    simp at hpd
  | Unknown l =>
    rw [hg] at hpd
    rw [List.mem_map] at hpd
    obtain ⟨d, hd, rfl⟩ := hpd
    exact ⟨hp, l, hg, hd⟩

theorem specFold_cases (b : SudokuBoard) :
    ∀ (pds : List ((Nat × Nat) × Nat)) (best : Impact),
    pds.foldl (specStep b) best = best ∨
      ∃ pd ∈ pds, pds.foldl (specStep b) best = specImpact b pd
  | [], best => Or.inl rfl
  | pd :: pds, best => by
    simp only [List.foldl_cons]
    by_cases hb : specBetter (specImpact b pd) best = true
    · have hstep : specStep b best pd = specImpact b pd := by
        rw [specStep, if_pos hb]
      rw [hstep]
      rcases specFold_cases b pds (specImpact b pd) with h | ⟨pd', hpd', h⟩
      · exact Or.inr ⟨pd, List.mem_cons_self _ _, h⟩
      · exact Or.inr ⟨pd', List.mem_cons_of_mem _ hpd', h⟩
    · have hstep : specStep b best pd = best := by
        rw [specStep, if_neg hb]
      rw [hstep]
      rcases specFold_cases b pds best with h | ⟨pd', hpd', h⟩
      · exact Or.inl h
      · exact Or.inr ⟨pd', List.mem_cons_of_mem _ hpd', h⟩

theorem specGuess_mem (b : SudokuBoard) (hne : guessPairs b ≠ [])
    (hlen : lenOK b = true) : specGuess b ∈ guessPairs b := by
  have hgoal : specGuess b =
      (((guessPairs b).foldl (specStep b) ⟨(0, 0), 0, usizeMax, 0, 0⟩).point,
       ((guessPairs b).foldl (specStep b) ⟨(0, 0), 0, usizeMax, 0, 0⟩).guess) := rfl
  rw [hgoal]
  cases hpairs : guessPairs b with
  | nil => exact absurd hpairs hne
  | cons pd0 rest =>
    have hmem0 : pd0 ∈ guessPairs b := by
      rw [hpairs]
      exact List.mem_cons_self _ _
    obtain ⟨hp0, l0, hg0, hd0⟩ := mem_guessPairs hmem0
    have hl0 : l0.length < usizeMax := by
      unfold lenOK at hlen
      rw [List.all_eq_true] at hlen
      have := hlen pd0.1 hp0
      rw [hg0] at this
      simpa using this
    have hcl0 : (specImpact b pd0).number_of_possible_values = l0.length := by
      unfold specImpact cellLen
      rw [hg0]
    have hb0 : specBetter (specImpact b pd0) ⟨(0, 0), 0, usizeMax, 0, 0⟩ = true := by
      unfold specBetter
      rw [hcl0]
      simp [hl0]
    have hstep0 : specStep b ⟨(0, 0), 0, usizeMax, 0, 0⟩ pd0 = specImpact b pd0 := by
      rw [specStep, if_pos hb0]
    rw [List.foldl_cons, hstep0]
    rcases specFold_cases b rest (specImpact b pd0) with h | ⟨pd', hpd', h⟩
    · rw [h]
      exact List.mem_cons_self _ _
    · rw [h]
      exact List.mem_cons_of_mem _ hpd'

/-- A board whose only non-known cell is a (program-unreachable) unknown
cell with an empty candidate list, at position (8, 8). -/
def c6Board : SudokuBoard :=
  ⟨List.replicate 8 (((List.range 9).map (· + 1)).map SudokuValue.Known) ++
    [([1, 2, 3, 4, 5, 6, 7, 8].map SudokuValue.Known) ++ [SudokuValue.Unknown []]], 1, true⟩

/-- A board whose only unknown cell is (0, 0) with candidates {1, 2}. -/
def c6WBoard : SudokuBoard :=
  ⟨(SudokuValue.Unknown [1, 2] :: ([2, 3, 4, 5, 6, 7, 8, 9].map SudokuValue.Known)) ::
    List.replicate 8 (((List.range 9).map (· + 1)).map SudokuValue.Known), 1, true⟩

/-- Counterexample to C6 as stated: `c6Board` has an unknown cell (so it is
"unsolved" in the claim's sense) but no (unknown cell, candidate digit)
pairs at all, and `most_impactful_guess` returns the sentinel ((0,0), 0),
which names a cell that is `Known 1` — not a maximal candidate pair. -/
theorem most_impactful_guess_C6_cex :
    0 < countU c6Board ∧ guessPairs c6Board = [] ∧
    mostImpactfulGuess c6Board = ((0, 0), 0) ∧
    getSpace c6Board (0, 0) = .Known 1 :=
  ⟨by decide, by decide, by decide, by decide⟩

/-- C6 (amended): on any board with at least one (unknown cell, candidate
digit) pair whose candidate lists fit a 64-bit length, `most_impactful_guess`
returns exactly the pair that is maximal under the three lexicographic keys
(fewest candidates, most adjacent size-2 listers, most adjacent listers)
over all pairs in row-major scan order, earliest pair winning ties — stated
as equality with the spec-side fold `specGuess` — and that pair is a real
(unknown cell, candidate digit) pair of the board. -/
theorem most_impactful_guess_C6 (b : SudokuBoard)
    (hne : guessPairs b ≠ []) (hlen : lenOK b = true) :
    mostImpactfulGuess b = specGuess b ∧ mostImpactfulGuess b ∈ guessPairs b := by
  refine ⟨mig_eq_specGuess b, ?_⟩
  rw [mig_eq_specGuess b]
  exact specGuess_mem b hne hlen

theorem most_impactful_guess_C6_witness :
    guessPairs c6WBoard ≠ [] ∧ lenOK c6WBoard = true ∧
    (mostImpactfulGuess c6WBoard = specGuess c6WBoard ∧
      mostImpactfulGuess c6WBoard ∈ guessPairs c6WBoard) :=
  ⟨by decide, by decide, most_impactful_guess_C6 c6WBoard (by decide) (by decide)⟩

/-! ## C10: validity of the returned guess -/

/-- A fill result that took neither the `Overwrite` nor the
`InvalidAssignment` error branch. -/
def NoBad (r : Except FillError Nat) : Prop :=
  r ≠ .error .overwrite ∧ r ≠ .error .invalidAssignment

theorem noBad_ok (n : Nat) : NoBad (.ok n) :=
  ⟨fun hh => Except.noConfusion hh, fun hh => Except.noConfusion hh⟩

theorem noBad_unsolvable : NoBad (.error .unsolvable) :=
  ⟨fun hh => by simp at hh, fun hh => by simp at hh⟩

theorem fillLoopG_noBad (recur :
      SudokuBoard → Nat × Nat → Nat → Option (SudokuBoard × Except FillError Nat))
    (hrec : ∀ b q w b' r, getSpace b q = .Known w → recur b q w = some (b', r) → NoBad r)
    (v : Nat) :
    ∀ (pts : List (Nat × Nat)) (b : SudokuBoard) (acc : Nat) (b' : SudokuBoard)
      (r : Except FillError Nat),
      fillLoopG recur b v pts acc = some (b', r) → NoBad r
  | [], b, acc, b', r, h => by
    simp only [fillLoopG] at h
    obtain ⟨rfl, rfl⟩ : b = b' ∧ Except.ok acc = r := by
      cases h
      exact ⟨rfl, rfl⟩
    exact noBad_ok acc
  | q :: rest, b, acc, b', r, h => by
    cases hrem : (getSpace b q).remove v with
    | error e0 =>
      simp only [fillLoopG, hrem] at h
      obtain ⟨rfl, rfl⟩ : b = b' ∧ Except.error FillError.unsolvable = r := by
        cases h
        exact ⟨rfl, rfl⟩
      exact noBad_unsolvable
    | ok pr =>
      obtain ⟨nv, res⟩ := pr
      rcases remove_analysis hrem with ⟨hres, hnv⟩ | ⟨l, i, hsv, hp, hilt, hcase⟩
      · subst hres
        subst hnv
        simp only [fillLoopG, hrem, setSpace_get_self] at h
        exact fillLoopG_noBad recur hrec v rest b acc b' r h
      · obtain ⟨h1, h2⟩ := inRange_of_unknown hsv
        rcases hcase with ⟨hres, hl2, d, hnv⟩ | ⟨hres, hnv, hlen, hne1⟩
        · subst hres
          subst hnv
          have hknown : getSpace (setSpace b q (.Known d)) q = .Known d :=
            getSpace_setSpace_self _ h1 h2
          cases hrecur : recur (setSpace b q (.Known d)) q d with
          | none =>
            simp only [fillLoopG, hrem, hrecur] at h
            exact Option.noConfusion h
          | some out2 =>
            obtain ⟨b2, r2⟩ := out2
            cases r2 with
            | error e2 =>
              simp only [fillLoopG, hrem, hrecur] at h
              obtain ⟨rfl, rfl⟩ : b2 = b' ∧ Except.error e2 = r := by
                cases h
                exact ⟨rfl, rfl⟩
              exact hrec _ _ _ _ _ hknown hrecur
            | ok m =>
              simp only [fillLoopG, hrem, hrecur] at h
              exact fillLoopG_noBad recur hrec v rest (decEmpty b2) (acc + 1) b' r h
        · subst hres
          subst hnv
          simp only [fillLoopG, hrem] at h
          exact fillLoopG_noBad recur hrec v rest
            (setSpace b q (.Unknown (swapRemove l i))) acc b' r h

theorem fillSpaceF_noBad : ∀ (fuel : Nat) (b : SudokuBoard) (p : Nat × Nat) (v : Nat)
    (b' : SudokuBoard) (r : Except FillError Nat),
    ((getSpace b p = .Known v) ∨ (∃ l, getSpace b p = .Unknown l ∧ v ∈ l)) →
    fillSpaceF fuel b p v = some (b', r) → NoBad r
  | 0, _, _, _, _, _, _, h => by simp [fillSpaceF] at h
  | fuel + 1, b, p, v, b', r, hgood, h => by
    cases hd : fillDirect b p v with
    | error e =>
      exfalso
      rcases hgood with hk | ⟨l, hu, hv⟩
      · simp only [fillDirect, hk] at hd
        simp at hd
      · simp only [fillDirect, hu] at hd
        simp [hv] at hd
    | ok pr =>
      obtain ⟨b1, n0⟩ := pr
      simp only [fillSpaceF, hd] at h
      exact fillLoopG_noBad (fillSpaceF fuel)
        (fun bb qq ww bb' rr hknown hh =>
          fillSpaceF_noBad fuel bb qq ww bb' rr (Or.inl hknown) hh)
        v (adjacentSpaces p) b1 n0 b' r h

/-- A board whose only non-known cell is a (program-unreachable) unknown
cell with an empty candidate list, at position (0, 8). -/
def c10Board : SudokuBoard :=
  ⟨(([1, 2, 3, 4, 5, 6, 7, 8].map SudokuValue.Known) ++ [SudokuValue.Unknown []]) ::
    List.replicate 8 (((List.range 9).map (· + 1)).map SudokuValue.Known), 1, true⟩

/-- A board whose only unknown cell is (1, 1) with candidates {4, 5}. -/
def c10WBoard : SudokuBoard :=
  ⟨(((List.range 9).map (· + 1)).map SudokuValue.Known) ::
    (SudokuValue.Known 1 :: SudokuValue.Unknown [4, 5] ::
      ([3, 4, 5, 6, 7, 8, 9].map SudokuValue.Known)) ::
    List.replicate 7 (((List.range 9).map (· + 1)).map SudokuValue.Known), 1, true⟩

/-- Counterexample to C10 as stated: `c10Board` has an unknown cell, yet
`most_impactful_guess` returns the sentinel ((0,0), 0) naming a cell that
is `Known 1`, and the subsequent `fill_space((0,0), 0)` takes exactly the
`Overwrite` error branch the claim rules out. -/
theorem guess_validity_C10_cex :
    0 < countU c10Board ∧
    mostImpactfulGuess c10Board = ((0, 0), 0) ∧
    getSpace c10Board (0, 0) = .Known 1 ∧
    fillSpaceF 1 c10Board (0, 0) 0 = some (c10Board, .error .overwrite) :=
  ⟨by decide, by decide, by decide, rfl⟩

/-- C10 (amended): on any board with at least one (unknown cell, candidate
digit) pair whose candidate lists fit a 64-bit length, the pair returned by
`most_impactful_guess` names an unknown cell whose candidate list contains
the digit, and therefore the following `fill_space(point, digit)` — at any
recursion depth, for any fuel — never returns the `Overwrite` or
`InvalidAssignment` error. -/
theorem guess_validity_C10 (b : SudokuBoard) (fuel : Nat)
    (hne : guessPairs b ≠ []) (hlen : lenOK b = true) :
    (∃ l, getSpace b (mostImpactfulGuess b).1 = .Unknown l ∧
      (mostImpactfulGuess b).2 ∈ l) ∧
    ∀ b' r, fillSpaceF fuel b (mostImpactfulGuess b).1 (mostImpactfulGuess b).2 =
        some (b', r) →
      r ≠ .error .overwrite ∧ r ≠ .error .invalidAssignment := by
  have hmem : mostImpactfulGuess b ∈ guessPairs b := by
    rw [mig_eq_specGuess b]
    exact specGuess_mem b hne hlen
  obtain ⟨hp, l, hg, hd⟩ := mem_guessPairs hmem
  refine ⟨⟨l, hg, hd⟩, ?_⟩
  intro b' r hfill
  exact fillSpaceF_noBad fuel b _ _ b' r (Or.inr ⟨l, hg, hd⟩) hfill

theorem guess_validity_C10_witness :
    guessPairs c10WBoard ≠ [] ∧ lenOK c10WBoard = true ∧
    (∃ l, getSpace c10WBoard (mostImpactfulGuess c10WBoard).1 = .Unknown l ∧
      (mostImpactfulGuess c10WBoard).2 ∈ l) :=
  ⟨by decide, by decide, (guess_validity_C10 c10WBoard 1 (by decide) (by decide)).1⟩


/-! ## C3: termination — the chosen fuels are sufficient -/

theorem countU_pos_of_unknown {b : SudokuBoard} {p : Nat × Nat} {l : List Nat}
    (h : getSpace b p = .Unknown l) : 0 < countU b := by
  obtain ⟨h1, h2⟩ := inRange_of_unknown h
  unfold getSpace at h
  set row := b.spaces.getD p.1 [] with hrow
  have hrmem : row ∈ b.spaces := getD_mem _ _ _ h1
  have hcmem : row.getD p.2 (SudokuValue.Known 0) ∈ row := getD_mem _ _ _ h2
  have hcount : 0 < row.countP fun c => !c.isKnown := by
    rw [List.countP_pos_iff]
    refine ⟨row.getD p.2 (SudokuValue.Known 0), hcmem, ?_⟩
    rw [h]
    rfl
  have hmem2 : (row.countP fun c => !c.isKnown) ∈
      b.spaces.map fun r => r.countP fun c => !c.isKnown :=
    List.mem_map_of_mem _ hrmem
  have := List.single_le_sum (fun (x : Nat) _ => Nat.zero_le x) _ hmem2
  unfold countU
  omega

theorem fillLoopG_suff (recur :
      SudokuBoard → Nat × Nat → Nat → Option (SudokuBoard × Except FillError Nat))
    (n : Nat)
    (hrecN : ∀ bb qq ww, countU bb < n → recur bb qq ww ≠ none)
    (hrecM : ∀ bb qq ww bb' rr, recur bb qq ww = some (bb', rr) → countU bb' ≤ countU bb)
    (v : Nat) :
    ∀ (pts : List (Nat × Nat)) (b : SudokuBoard) (acc : Nat),
      countU b ≤ n → fillLoopG recur b v pts acc ≠ none
  | [], b, acc, _ => by
    simp [fillLoopG]
  | q :: rest, b, acc, hle => by
    cases hrem : (getSpace b q).remove v with
    | error e0 =>
      simp [fillLoopG, hrem]
    | ok pr =>
      obtain ⟨nv, res⟩ := pr
      rcases remove_analysis hrem with ⟨hres, hnv⟩ | ⟨l, i, hsv, hp, hilt, hcase⟩
      · subst hres
        subst hnv
        simp only [fillLoopG, hrem, setSpace_get_self]
        exact fillLoopG_suff recur n hrecN hrecM v rest b acc hle
      · obtain ⟨h1, h2⟩ := inRange_of_unknown hsv
        rcases hcase with ⟨hres, hl2, d, hnv⟩ | ⟨hres, hnv, hlen, hne1⟩
        · subst hres
          subst hnv
          have hcu : countU (setSpace b q (.Known d)) + 1 = countU b := by
            have := countU_setSpace (b := b) (p := q) (.Known d) h1 h2
            rw [hsv] at this
            simpa [SudokuValue.isKnown] using this
          cases hrecur : recur (setSpace b q (.Known d)) q d with
          | none =>
            exact absurd hrecur (hrecN _ _ _ (by omega))
          | some out2 =>
            obtain ⟨b2, r2⟩ := out2
            have hm2 := hrecM _ _ _ _ _ hrecur
            cases r2 with
            | error e2 =>
              simp [fillLoopG, hrem, hrecur]
            | ok m =>
              simp only [fillLoopG, hrem, hrecur]
              exact fillLoopG_suff recur n hrecN hrecM v rest (decEmpty b2) (acc + 1)
                (by rw [countU_decEmpty]; omega)
        · subst hres
          subst hnv
          have hcu : countU (setSpace b q (.Unknown (swapRemove l i))) = countU b := by
            have := countU_setSpace (b := b) (p := q) (.Unknown (swapRemove l i)) h1 h2
            rw [hsv] at this
            simpa [SudokuValue.isKnown] using this
          simp only [fillLoopG, hrem]
          exact fillLoopG_suff recur n hrecN hrecM v rest
            (setSpace b q (.Unknown (swapRemove l i))) acc (by omega)

theorem fillSpaceF_suff : ∀ (fuel : Nat) (b : SudokuBoard) (p : Nat × Nat) (v : Nat),
    countU b < fuel → fillSpaceF fuel b p v ≠ none
  | fuel + 1, b, p, v, hlt => by
    cases hd : fillDirect b p v with
    | error e =>
      simp [fillSpaceF, hd]
    | ok pr =>
      obtain ⟨b1, n0⟩ := pr
      have hcu1 : countU b1 ≤ countU b := by
        rcases fillDirect_analysis hd with ⟨hk, heq⟩ | ⟨l, hu, hvin, heq⟩
        · obtain ⟨rfl, -⟩ : b1 = b ∧ n0 = 0 := by
            cases heq
            exact ⟨rfl, rfl⟩
          exact le_refl _
        · obtain ⟨h1, h2⟩ := inRange_of_unknown hu
          obtain ⟨rfl, -⟩ : b1 = decEmpty (setSpace b p (.Known v)) ∧ n0 = 1 := by
            cases heq
            exact ⟨rfl, rfl⟩
          rw [countU_decEmpty]
          have h3 := countU_setSpace (b := b) (p := p) (.Known v) h1 h2
          rw [hu] at h3
          simp [SudokuValue.isKnown] at h3
          omega
      simp only [fillSpaceF, hd]
      exact fillLoopG_suff (fillSpaceF fuel) fuel
        (fun bb qq ww hh => fillSpaceF_suff fuel bb qq ww hh)
        (fun bb qq ww bb' rr hh => (fillSpaceF_master fuel bb qq ww bb' rr hh).1)
        v (adjacentSpaces p) b1 n0 (by omega)

theorem narrowValues_suff (fuel : Nat) :
    ∀ (values : List Nat) (b : SudokuBoard) (unit : List (Nat × Nat)) (acc : Nat),
      countU b < fuel → narrowValues fuel b unit values acc ≠ none
  | [], b, unit, acc, _ => by simp [narrowValues]
  | value :: vrest, b, unit, acc, hlt => by
    cases hscan : scanUnit b value unit none with
    | skipValue =>
      simp only [narrowValues, hscan]
      exact narrowValues_suff fuel vrest b unit acc hlt
    | noPlace =>
      simp [narrowValues, hscan]
    | fillAt point =>
      cases hfill : fillSpaceF fuel b point value with
      | none =>
        exact absurd hfill (fillSpaceF_suff fuel b point value hlt)
      | some out1 =>
        obtain ⟨b1, r1⟩ := out1
        have hm1 := fillSpaceF_master fuel b point value b1 r1 hfill
        cases r1 with
        | error e =>
          simp [narrowValues, hscan, hfill]
        | ok m =>
          simp only [narrowValues, hscan, hfill]
          exact narrowValues_suff fuel vrest b1 unit (acc + m) (by
            have := hm1.1
            omega)

theorem narrowUnits_suff (fuel : Nat) :
    ∀ (units : List (List (Nat × Nat))) (b : SudokuBoard) (acc : Nat),
      countU b < fuel → narrowUnits fuel b units acc ≠ none
  | [], b, acc, _ => by simp [narrowUnits]
  | unit :: urest, b, acc, hlt => by
    cases hnv : narrowValues fuel b unit ((List.range 9).map (· + 1)) acc with
    | none =>
      exact absurd hnv (narrowValues_suff fuel _ b unit acc hlt)
    | some out1 =>
      obtain ⟨b1, r1⟩ := out1
      have hm1 := narrowValues_master fuel _ b unit acc b1 r1 hnv
      cases r1 with
      | error e =>
        simp [narrowUnits, hnv]
      | ok acc' =>
        simp only [narrowUnits, hnv]
        exact narrowUnits_suff fuel urest b1 acc' (by
          have := hm1.1
          omega)

theorem narrowF_suff (fuel : Nat) (b : SudokuBoard) (hlt : countU b < fuel) :
    narrowF fuel b ≠ none :=
  narrowUnits_suff fuel getAllFullCoordinates b 0 hlt

theorem narrowFullF_suff : ∀ (lf fuel : Nat) (b : SudokuBoard),
    countU b < fuel → countU b < lf → narrowFullF lf fuel b ≠ none
  | lf + 1, fuel, b, hf, hl => by
    cases hn : narrowF fuel b with
    | none =>
      exact absurd hn (narrowF_suff fuel b hf)
    | some out1 =>
      obtain ⟨b1, r1⟩ := out1
      have hm1 := narrowF_master hn
      cases r1 with
      | error e =>
        simp [narrowFullF, hn]
      | ok n =>
        by_cases hcond : 0 < n ∧ ¬ isSolved b1 = true
        · have hrw : narrowFullF (lf + 1) fuel b = narrowFullF lf fuel b1 := by
            simp only [narrowFullF, hn, if_pos hcond]
          rw [hrw]
          have hcnt : countU b1 + n ≤ countU b := by
            have := (hm1.2.2.2.1 n rfl).2
            omega
          exact narrowFullF_suff lf fuel b1 (by omega) (by omega)
        · have hrw : narrowFullF (lf + 1) fuel b = some (b1, .ok (isSolved b1)) := by
            simp only [narrowFullF, hn, if_neg hcond]
          rw [hrw]
          simp
theorem queueRow_len (r : Nat) : ∀ (row : List SudokuValue) (m : Nat),
    ((List.enumFrom m row).filterMap fun js =>
      match js.2 with
      | SudokuValue.Known space_value => some (r, js.1, space_value)
      | SudokuValue.Unknown _ => none).length = row.countP fun c => c.isKnown
  | [], m => rfl
  | c :: row, m => by
    have hcons : List.enumFrom m (c :: row) = (m, c) :: List.enumFrom (m + 1) row := rfl
    rw [hcons, List.filterMap_cons, List.countP_cons]
    have ih := queueRow_len r row (m + 1)
    cases c with
    | Known v =>
      simp [ih, SudokuValue.isKnown]
    | Unknown l =>
      simp [ih, SudokuValue.isKnown]

theorem initialQueue_length (b : SudokuBoard) : (initialQueue b).length = countK b := by
  suffices h : ∀ (rows : List (List SudokuValue)) (n : Nat),
      ((List.enumFrom n rows).flatMap fun ir =>
        ir.2.enum.filterMap fun js =>
          match js.2 with
          | SudokuValue.Known space_value => some (ir.1, js.1, space_value)
          | SudokuValue.Unknown _ => none).length =
      (rows.map fun row => row.countP fun c => c.isKnown).sum by
    exact h b.spaces 0
  intro rows
  induction rows with
  | nil => intro n; rfl
  | cons row rows ih =>
    intro n
    have hcons : List.enumFrom n (row :: rows) = (n, row) :: List.enumFrom (n + 1) rows := rfl
    rw [hcons, List.flatMap_cons, List.length_append, ih (n + 1), List.map_cons,
      List.sum_cons]
    have h1 : (((n, row) : Nat × List SudokuValue).2.enum.filterMap fun js =>
        match js.2 with
        | SudokuValue.Known space_value => some (((n, row) : Nat × List SudokuValue).1, js.1, space_value)
        | SudokuValue.Unknown _ => none).length = row.countP fun c => c.isKnown :=
      queueRow_len n row 0
    rw [h1]

theorem icLoop_suff : ∀ (fuel : Nat) (b : SudokuBoard) (queue : List (Nat × Nat × Nat)),
    queue.length + countU b < fuel → icLoop fuel b queue ≠ none
  | _, b, [], _ => by simp [icLoop]
  | fuel + 1, b, (x, y, space_value) :: qrest, hlt => by
    cases hic : icAdj b qrest space_value (adjacentSpaces (x, y)) with
    | mk b1 res =>
      obtain ⟨-, -, hq⟩ := icAdj_master (adjacentSpaces (x, y)) b qrest space_value b1 res hic
      cases res with
      | error e =>
        simp [icLoop, hic]
      | ok queue' =>
        simp only [icLoop, hic]
        have := hq queue' rfl
        simp only [List.length_cons] at hlt
        exact icLoop_suff fuel b1 queue' (by omega)

theorem initalCheckF_suff (fuel : Nat) (b : SudokuBoard)
    (hlt : countK b + countU b < fuel) : initalCheckF fuel b ≠ none := by
  unfold initalCheckF
  apply icLoop_suff
  have hq : (initialQueue { b with initalised := true }).length =
      countK { b with initalised := true } := initialQueue_length _
  have hk : countK { b with initalised := true } = countK b := rfl
  have hu : countU { b with initalised := true } = countU b := rfl
  omega

theorem solveRemoveGuess_noFuelOut (b : SudokuBoard) (point : Nat × Nat) (gv : Nat) :
    solveRemoveGuess b point gv ≠ .fuelOut := by
  cases hrem : (getSpace b point).remove gv with
  | error e =>
    simp [solveRemoveGuess, hrem]
  | ok pr =>
    obtain ⟨nv, res⟩ := pr
    cases res with
    | valueNowKnown =>
      cases hg2 : getSpace (decEmpty (setSpace b point nv)) point with
      | Known pnv =>
        cases hfill : fillSpaceF (countU (decEmpty (setSpace b point nv)) + 1)
            (decEmpty (setSpace b point nv)) point pnv with
        | none =>
          exact absurd hfill (fillSpaceF_suff _ _ point pnv (by omega))
        | some out1 =>
          obtain ⟨b3, r3⟩ := out1
          cases r3 with
          | error e =>
            simp [solveRemoveGuess, hrem, hg2, hfill]
          | ok m =>
            by_cases hsolved : isSolved b3 = true
            · simp [solveRemoveGuess, hrem, hg2, hfill, hsolved]
            · cases hnf : narrowFullF (countU b3 + 2) (countU b3 + 1) b3 with
              | none =>
                exact absurd hnf (narrowFullF_suff _ _ b3 (by omega) (by omega))
              | some out2 =>
                obtain ⟨b4, r4⟩ := out2
                cases r4 with
                | error e =>
                  simp [solveRemoveGuess, hrem, hg2, hfill, hsolved, hnf]
                | ok s4 =>
                  by_cases hsolved4 : isSolved b4 = true
                  · simp [solveRemoveGuess, hrem, hg2, hfill, hsolved, hnf, hsolved4]
                  · simp [solveRemoveGuess, hrem, hg2, hfill, hsolved, hnf, hsolved4]
      | Unknown l2 =>
        simp [solveRemoveGuess, hrem, hg2]
    | possibleValueRemoved =>
      simp [solveRemoveGuess, hrem]
    | possibleValueAlreadyRemoved =>
      simp [solveRemoveGuess, hrem]
theorem mem_guessPairs_of {b : SudokuBoard} {p : Nat × Nat} {l : List Nat} {d : Nat}
    (hp : p ∈ allPoints) (hg : getSpace b p = .Unknown l) (hd : d ∈ l) :
    (p, d) ∈ guessPairs b := by
  unfold guessPairs
  rw [List.mem_flatten]
  refine ⟨l.map fun d => (p, d), ?_, List.mem_map_of_mem _ hd⟩
  rw [List.mem_map]
  refine ⟨p, hp, ?_⟩
  rw [hg]

theorem lenOK_of_candInv (b : SudokuBoard) (hCI : CandInv b) : lenOK b = true := by
  unfold lenOK
  rw [List.all_eq_true]
  intro p hp
  cases hgp : getSpace b p with
  | Known kv => simp
  | Unknown l =>
    have hcc := candInv_getSpace hCI p
    rw [hgp] at hcc
    obtain ⟨-, hnd, hrange⟩ := hcc
    have hsub : l.toFinset ⊆ Finset.Icc 1 9 := by
      intro x hx
      rw [List.mem_toFinset] at hx
      rw [Finset.mem_Icc]
      exact hrange x hx
    have hcard : l.length ≤ 9 := by
      have h1 := List.toFinset_card_of_nodup hnd
      have h2 := Finset.card_le_card hsub
      rw [Nat.card_Icc] at h2
      omega
    have hlt : l.length < usizeMax := by
      have : (9 : Nat) < usizeMax := by norm_num [usizeMax]
      omega
    simpa using hlt

theorem exists_unknown_of_countU_pos {b : SudokuBoard}
    (hshape : b.spaces.map List.length = List.replicate 9 9) (hpos : 0 < countU b) :
    ∃ p l, p ∈ allPoints ∧ getSpace b p = .Unknown l := by
  have hex : ∃ x ∈ b.spaces.map fun row => row.countP fun c => !c.isKnown, 0 < x := by
    by_contra hc
    push_neg at hc
    have hz : (b.spaces.map fun row => row.countP fun c => !c.isKnown).sum = 0 :=
      List.sum_eq_zero fun x hx => by
        have := hc x hx
        omega
    unfold countU at hpos
    omega
  obtain ⟨x, hx, hxpos⟩ := hex
  rw [List.mem_map] at hx
  obtain ⟨row, hrow, rfl⟩ := hx
  rw [List.countP_pos_iff] at hxpos
  obtain ⟨c, hc, hck⟩ := hxpos
  cases c with
  | Known kv => simp [SudokuValue.isKnown] at hck
  | Unknown l =>
    obtain ⟨i, hi, hrowi⟩ := List.mem_iff_getElem.1 hrow
    obtain ⟨j, hj, hcj⟩ := List.mem_iff_getElem.1 hc
    have hlen9 : b.spaces.length = 9 := by
      have := congrArg List.length hshape
      simpa using this
    have hrl : row.length = 9 := by
      have h1 : (b.spaces.map List.length)[i]? = some 9 := by
        rw [hshape, List.getElem?_replicate, if_pos (by omega)]
      rw [List.getElem?_map, List.getElem?_eq_getElem hi, hrowi] at h1
      simpa using h1
    refine ⟨(i, j), l, ?_, ?_⟩
    · rw [mem_allPoints]
      exact ⟨by omega, by omega⟩
    · have hg1 : b.spaces.getD i [] = row := by
        rw [List.getD_eq_getElem?_getD, List.getElem?_eq_getElem hi, hrowi]
        rfl
      have hg2 : row.getD j (SudokuValue.Known 0) = SudokuValue.Unknown l := by
        rw [List.getD_eq_getElem?_getD, List.getElem?_eq_getElem hj, hcj]
        rfl
      show (b.spaces.getD i []).getD j (SudokuValue.Known 0) = SudokuValue.Unknown l
      rw [hg1, hg2]

theorem mig_valid (b : SudokuBoard) (hCI : CandInv b)
    (hshape : b.spaces.map List.length = List.replicate 9 9) (hpos : 0 < countU b) :
    ∃ l, getSpace b (mostImpactfulGuess b).1 = .Unknown l ∧
      (mostImpactfulGuess b).2 ∈ l ∧ 2 ≤ l.length := by
  obtain ⟨p, l0, hp, hg0⟩ := exists_unknown_of_countU_pos hshape hpos
  have hcc := candInv_getSpace hCI p
  rw [hg0] at hcc
  obtain ⟨hlen2, -, -⟩ := hcc
  obtain ⟨d0, hd0⟩ : ∃ d, d ∈ l0 := by
    cases l0 with
    | nil => simp at hlen2
    | cons a as => exact ⟨a, List.mem_cons_self _ _⟩
  have hne : guessPairs b ≠ [] := List.ne_nil_of_mem (mem_guessPairs_of hp hg0 hd0)
  have hmem : mostImpactfulGuess b ∈ guessPairs b := by
    rw [mig_eq_specGuess b]
    exact specGuess_mem b hne (lenOK_of_candInv b hCI)
  obtain ⟨-, l, hg, hd⟩ := mem_guessPairs hmem
  have hcc2 := candInv_getSpace hCI (mostImpactfulGuess b).1
  rw [hg] at hcc2
  exact ⟨l, hg, hd, hcc2.1⟩

theorem solveRemoveGuess_decrease {b : SudokuBoard} {point : Nat × Nat} {gv : Nat}
    {l : List Nat} (hg : getSpace b point = .Unknown l) (hmem : gv ∈ l)
    (hsl : b.empty_spaces = countU b) :
    ∀ b', solveRemoveGuess b point gv = .again b' →
      totalCand b' < totalCand b ∧ 0 < countU b' := by
  obtain ⟨h1, h2⟩ := inRange_of_unknown hg
  obtain ⟨i, hpos⟩ := position_isSome_of_mem hmem
  obtain ⟨hilt, -⟩ := position_spec hpos
  have hswlen : (swapRemove l i).length + 1 = l.length := by
    have := (swapRemove_perm l i hilt).length_eq
    simpa using this
  intro b' hrg
  by_cases hone : (swapRemove l i).length = 1
  · have hrem : (getSpace b point).remove gv =
        .ok (.Known ((swapRemove l i).getD 0 0), .valueNowKnown) := by
      rw [hg]
      simp [SudokuValue.remove, hpos, hone]
    have hl2 : l.length = 2 := by omega
    have htc1 : totalCand (setSpace b point (.Known ((swapRemove l i).getD 0 0))) + 2 =
        totalCand b := by
      have := totalCand_setSpace (b := b) (p := point)
        (.Known ((swapRemove l i).getD 0 0)) h1 h2
      rw [hg] at this
      simpa [cellCand, hl2] using this
    have hcu1 : countU (setSpace b point (.Known ((swapRemove l i).getD 0 0))) + 1 =
        countU b := by
      have := countU_setSpace (b := b) (p := point)
        (.Known ((swapRemove l i).getD 0 0)) h1 h2
      rw [hg] at this
      simpa [SudokuValue.isKnown] using this
    have hg2 : getSpace (decEmpty (setSpace b point
        (.Known ((swapRemove l i).getD 0 0)))) point =
        .Known ((swapRemove l i).getD 0 0) :=
      getSpace_setSpace_self _ h1 h2
    have hsl2 : (decEmpty (setSpace b point
        (.Known ((swapRemove l i).getD 0 0)))).empty_spaces =
        countU (decEmpty (setSpace b point (.Known ((swapRemove l i).getD 0 0)))) := by
      show (setSpace b point (.Known ((swapRemove l i).getD 0 0))).empty_spaces - 1 =
        countU (setSpace b point (.Known ((swapRemove l i).getD 0 0)))
      have hemp : (setSpace b point (.Known ((swapRemove l i).getD 0 0))).empty_spaces =
          b.empty_spaces := rfl
      omega
    cases hfill : fillSpaceF
        (countU (decEmpty (setSpace b point (.Known ((swapRemove l i).getD 0 0)))) + 1)
        (decEmpty (setSpace b point (.Known ((swapRemove l i).getD 0 0)))) point
        ((swapRemove l i).getD 0 0) with
    | none => exact absurd hfill (fillSpaceF_suff _ _ _ _ (by omega))
    | some out1 =>
      obtain ⟨b3, r3⟩ := out1
      have hm3 := fillSpaceF_master _ _ _ _ _ _ hfill
      cases r3 with
      | error e =>
        simp only [solveRemoveGuess, hrem, hg2, hfill] at hrg
        exact LoopStep.noConfusion hrg
      | ok m =>
        by_cases hsolved : isSolved b3 = true
        · simp only [solveRemoveGuess, hrem, hg2, hfill, hsolved, eq_self_iff_true,
            if_true] at hrg
          exact LoopStep.noConfusion hrg
        · cases hnf : narrowFullF (countU b3 + 2) (countU b3 + 1) b3 with
          | none => exact absurd hnf (narrowFullF_suff _ _ _ (by omega) (by omega))
          | some out2 =>
            obtain ⟨b4, r4⟩ := out2
            obtain ⟨hle4, hsl4⟩ := narrowFullF_master _ _ _ _ _ hnf
            cases r4 with
            | error e =>
              simp only [solveRemoveGuess, hrem, hg2, hfill, hsolved, if_false,
                hnf] at hrg
              exact LoopStep.noConfusion hrg
            | ok s4 =>
              by_cases hsolved4 : isSolved b4 = true
              · simp only [solveRemoveGuess, hrem, hg2, hfill, hsolved, if_false, hnf,
                  hsolved4, eq_self_iff_true, if_true] at hrg
                exact LoopStep.noConfusion hrg
              · simp only [solveRemoveGuess, hrem, hg2, hfill, hsolved, if_false, hnf,
                  hsolved4] at hrg
                obtain rfl : b4 = b' := by
                  cases hrg
                  rfl
                have htc3 := hm3.2.1
                have htc4 := hle4.2.1
                have htcd : totalCand (decEmpty (setSpace b point
                    (.Known ((swapRemove l i).getD 0 0)))) =
                    totalCand (setSpace b point (.Known ((swapRemove l i).getD 0 0))) :=
                  totalCand_decEmpty _
                have hsl3 : b3.empty_spaces = countU b3 := by
                  have := (hm3.2.2.2.1 m rfl).1 0 (by omega)
                  omega
                have hsl4' : b4.empty_spaces = countU b4 := by
                  have := hsl4 s4 rfl 0 (by omega)
                  omega
                have hpos4 : 0 < countU b4 := by
                  unfold isSolved at hsolved4
                  simp at hsolved4
                  omega
                exact ⟨by omega, hpos4⟩
  · have hrem : (getSpace b point).remove gv =
        .ok (.Unknown (swapRemove l i), .possibleValueRemoved) := by
      rw [hg]
      simp [SudokuValue.remove, hpos, hone]
    have htc1 : totalCand (setSpace b point (.Unknown (swapRemove l i))) + l.length =
        totalCand b + (swapRemove l i).length := by
      have := totalCand_setSpace (b := b) (p := point) (.Unknown (swapRemove l i)) h1 h2
      rw [hg] at this
      simpa [cellCand] using this
    have hrg' : setSpace b point (.Unknown (swapRemove l i)) = b' := by
      simp only [solveRemoveGuess, hrem] at hrg
      cases hrg
      rfl
    subst hrg'
    refine ⟨by omega, ?_⟩
    exact countU_pos_of_unknown (getSpace_setSpace_self (b := b) (p := point) _ h1 h2)

/-- The well-formedness invariant of C3: the `empty_spaces` slack is exact,
the candidate invariant holds, and the grid is 9×9. -/
def SolveInv (b : SudokuBoard) : Prop :=
  b.empty_spaces = countU b ∧ CandInv b ∧
    b.spaces.map List.length = List.replicate 9 9

theorem solveLoopG_suff (fuel : Nat) (recur : SudokuBoard → Option (SudokuBoard × Bool))
    (hrec : ∀ bb, SolveInv bb → totalCand bb < fuel → recur bb ≠ none) :
    ∀ (lf : Nat) (b : SudokuBoard), SolveInv b → 0 < countU b →
      totalCand b ≤ fuel → totalCand b < lf → solveLoopG recur lf b ≠ none
  | 0, b, _, _, _, hlf => absurd hlf (Nat.not_lt_zero _)
  | lf + 1, b, hinv, hpos, hfu, hlf => by
    obtain ⟨hsl, hCI, hshape⟩ := hinv
    obtain ⟨l, hg, hd, hl2⟩ := mig_valid b hCI hshape hpos
    obtain ⟨h1, h2⟩ := inRange_of_unknown hg
    have hfd : fillDirect b (mostImpactfulGuess b).1 (mostImpactfulGuess b).2 =
        .ok (decEmpty (setSpace b (mostImpactfulGuess b).1
          (.Known (mostImpactfulGuess b).2)), 1) := by
      simp only [fillDirect, hg, if_pos hd]
    cases hfill : fillSpaceF (countU b + 1) b (mostImpactfulGuess b).1
        (mostImpactfulGuess b).2 with
    | none => exact absurd hfill (fillSpaceF_suff _ _ _ _ (by omega))
    | some outg =>
      obtain ⟨gb, rg⟩ := outg
      have hmg := fillSpaceF_master _ _ _ _ _ _ hfill
      have hAgain : ∀ b2, solveRemoveGuess b (mostImpactfulGuess b).1
          (mostImpactfulGuess b).2 = .again b2 → solveLoopG recur lf b2 ≠ none := by
        intro b2 hb2
        obtain ⟨htc2, hpos2⟩ := solveRemoveGuess_decrease hg hd hsl b2 hb2
        obtain ⟨hle2, hslp2⟩ :=
          (solveRemoveGuess_master b (mostImpactfulGuess b).1
            (mostImpactfulGuess b).2).2 b2 hb2
        refine solveLoopG_suff fuel recur hrec lf b2
          ⟨?_, hle2.2.2.2 hCI, ?_⟩ hpos2 (by omega) (by omega)
        · have := hslp2 0 (by omega)
          omega
        · rw [hle2.2.2.1, hshape]
      cases rg with
      | error e =>
        simp only [solveLoopG, hfill]
        cases hsrg : solveRemoveGuess b (mostImpactfulGuess b).1
            (mostImpactfulGuess b).2 with
        | done b2 s2 => simp [hsrg]
        | again b2 =>
          simp only [hsrg]
          exact hAgain b2 hsrg
        | fuelOut => exact absurd hsrg (solveRemoveGuess_noFuelOut b _ _)
      | ok m =>
        have hinvg : SolveInv gb := by
          refine ⟨?_, hmg.2.2.2.2 hCI, ?_⟩
          · have := (hmg.2.2.2.1 m rfl).1 0 (by omega)
            omega
          · rw [hmg.2.2.1, hshape]
        have htcg : totalCand gb + 2 ≤ totalCand b := by
          have hfill' := hfill
          simp only [fillSpaceF, hfd] at hfill'
          have hm1 := fillLoopG_master (fillSpaceF (countU b))
            (fun bb qq ww bb' rr hh => fillSpaceF_master (countU b) bb qq ww bb' rr hh)
            (mostImpactfulGuess b).2 (adjacentSpaces (mostImpactfulGuess b).1)
            (decEmpty (setSpace b (mostImpactfulGuess b).1
              (.Known (mostImpactfulGuess b).2))) 1 gb (.ok m) hfill'
          have htcset : totalCand (setSpace b (mostImpactfulGuess b).1
              (.Known (mostImpactfulGuess b).2)) + l.length = totalCand b := by
            have := totalCand_setSpace (b := b) (p := (mostImpactfulGuess b).1)
              (.Known (mostImpactfulGuess b).2) h1 h2
            rw [hg] at this
            simpa [cellCand] using this
          have htcd : totalCand (decEmpty (setSpace b (mostImpactfulGuess b).1
              (.Known (mostImpactfulGuess b).2))) =
              totalCand (setSpace b (mostImpactfulGuess b).1
                (.Known (mostImpactfulGuess b).2)) := totalCand_decEmpty _
          have := hm1.2.1
          omega
        cases hsolve : recur gb with
        | none => exact absurd hsolve (hrec gb hinvg (by omega))
        | some outs =>
          obtain ⟨sb, ss⟩ := outs
          cases ss with
          | true => simp [solveLoopG, hfill, hsolve]
          | false =>
            simp only [solveLoopG, hfill, hsolve]
            cases hsrg : solveRemoveGuess b (mostImpactfulGuess b).1
                (mostImpactfulGuess b).2 with
            | done b2 s2 => simp [hsrg]
            | again b2 =>
              simp only [hsrg]
              exact hAgain b2 hsrg
            | fuelOut => exact absurd hsrg (solveRemoveGuess_noFuelOut b _ _)

theorem solveF_suff : ∀ (fuel : Nat) (b : SudokuBoard), SolveInv b →
    totalCand b < fuel → solveF fuel b ≠ none
  | 0, b, _, hlt => absurd hlt (Nat.not_lt_zero _)
  | fuel + 1, b, hinv, hlt => by
    obtain ⟨hsl, hCI, hshape⟩ := hinv
    cases hic : (if !b.initalised then initalCheckF (countK b + countU b + 1) b
        else some (b, .ok ())) with
    | none =>
      exfalso
      by_cases hinit : (!b.initalised) = true
      · rw [if_pos hinit] at hic
        exact absurd hic (initalCheckF_suff _ b (by omega))
      · rw [if_neg hinit] at hic
        exact Option.noConfusion hic
    | some out1 =>
      obtain ⟨b1, r1⟩ := out1
      have hlesl : BoardLe b b1 ∧ SlackPres b b1 := by
        by_cases hinit : (!b.initalised) = true
        · rw [if_pos hinit] at hic
          exact initalCheckF_master hic
        · rw [if_neg hinit] at hic
          obtain ⟨rfl, -⟩ : b = b1 ∧ Except.ok () = r1 := by
            cases hic
            exact ⟨rfl, rfl⟩
          exact ⟨boardLe_refl b, slackPres_refl b⟩
      obtain ⟨hle1, hsl1⟩ := hlesl
      cases r1 with
      | error e =>
        simp only [solveF, hic]
        simp
      | ok u =>
        by_cases hsolved : isSolved b1 = true
        · simp only [solveF, hic, hsolved, eq_self_iff_true, if_true]
          simp
        · cases hnf : narrowFullF (countU b1 + 2) (countU b1 + 1) b1 with
          | none => exact absurd hnf (narrowFullF_suff _ _ b1 (by omega) (by omega))
          | some out2 =>
            obtain ⟨b2, r2⟩ := out2
            obtain ⟨hle2, hsl2⟩ := narrowFullF_master _ _ _ _ _ hnf
            cases r2 with
            | error e =>
              simp only [solveF, hic, hsolved, if_false, hnf]
              simp
            | ok nfb =>
              by_cases hsolved2 : isSolved b2 = true
              · simp only [solveF, hic, hsolved, if_false, hnf, hsolved2,
                  eq_self_iff_true, if_true]
                simp
              · simp only [solveF, hic, hsolved, if_false, hnf, hsolved2]
                have hslb1 : b1.empty_spaces = countU b1 := by
                  have := hsl1 0 (by omega)
                  omega
                have hslb2 : b2.empty_spaces = countU b2 := by
                  have := hsl2 nfb rfl 0 (by omega)
                  omega
                have hinv2 : SolveInv b2 := by
                  refine ⟨hslb2, hle2.2.2.2 (hle1.2.2.2 hCI), ?_⟩
                  rw [hle2.2.2.1, hle1.2.2.1, hshape]
                have hpos2 : 0 < countU b2 := by
                  unfold isSolved at hsolved2
                  simp at hsolved2
                  omega
                have htc2 : totalCand b2 ≤ totalCand b := le_trans hle2.2.1 hle1.2.1
                exact solveLoopG_suff fuel (solveF fuel)
                  (fun bb hh hlt2 => solveF_suff fuel bb hh hlt2)
                  (fuel + 1) b2 hinv2 hpos2 (by omega) (by omega)

/-- C3: `solve` terminates on every well-formed board: with fuel one more
than the sum of candidate-set sizes — the quantity that strictly decreases
on every failed branch and bounds both the branching loop and the
recursion depth — the model of `solve` always returns a result instead of
running out of fuel. -/
theorem solve_terminates_C3 (b : SudokuBoard)
    (hsl : b.empty_spaces = countU b) (hCI : CandInv b)
    (hshape : b.spaces.map List.length = List.replicate 9 9) :
    ∃ b' solved, solveF (totalCand b + 1) b = some (b', solved) := by
  cases hs : solveF (totalCand b + 1) b with
  | none => exact absurd hs (solveF_suff _ b ⟨hsl, hCI, hshape⟩ (Nat.lt_succ_self _))
  | some out =>
    exact ⟨out.1, out.2, rfl⟩

theorem solve_terminates_C3_witness :
    (c8WBoard.empty_spaces = countU c8WBoard ∧ CandInv c8WBoard ∧
      c8WBoard.spaces.map List.length = List.replicate 9 9) ∧
    ∃ b' solved, solveF (totalCand c8WBoard + 1) c8WBoard = some (b', solved) := by
  have hCI : CandInv c8WBoard := by
    intro row hrow c hc
    rw [List.eq_of_mem_replicate hrow] at hc
    rw [List.eq_of_mem_replicate hc]
    show 2 ≤ ((List.range 9).map (· + 1)).length ∧
      ((List.range 9).map (· + 1)).Nodup ∧
      ∀ x ∈ (List.range 9).map (· + 1), 1 ≤ x ∧ x ≤ 9
    decide
  exact ⟨⟨by decide, hCI, by decide⟩,
    solve_terminates_C3 c8WBoard (by decide) hCI (by decide)⟩

end RSudoku
